import Mathlib

/-!
Verification of the email-writer data-preparation pipeline.

Shallow embedding of the Python sources:
  - lib/email_cleaner.py  : body sanitisation, filtering, mbox processing
  - lib/prompt_enhancer.py: generic-prompt refinement
  - prepare_data.py       : dataset splitting

Strings are modelled as `List Char` (ASCII discipline: Python's Unicode
character classes are restricted to their ASCII parts, which covers every
constant appearing in the sources).  Each Python function is translated to
a computable Lean definition bearing the same name.
-/

/-- Text as a list of characters. -/
abbrev Str := List Char

/-- Coerce a Lean string literal to the model. -/
def str (s : String) : Str := s.data

-- ==========================================================
-- Character classes (ASCII fragments of Python's classes)
-- ==========================================================

/-- Python `str.strip` / regex whitespace: space, tab, newline, CR, VT, FF. -/
def isSpacePy (c : Char) : Bool :=
  c = ' ' || c = '\t' || c = '\n' || c = '\x0d' || c = '\x0b' || c = '\x0c'

/-- Regex word character (ASCII): letter, digit or underscore. -/
def isWordChar (c : Char) : Bool :=
  c.isAlpha || c.isDigit || c = '_'

/-- Regex digit. -/
def isDigitCh (c : Char) : Bool := c.isDigit

/-- Characters allowed inside the phone-number separators: dash, dot, whitespace. -/
def isPhoneSep (c : Char) : Bool := c = '-' || c = '.' || isSpacePy c

/-- ASCII lower-casing, Python `str.lower`. -/
def lowerStr (s : Str) : Str := s.map Char.toLower

-- ==========================================================
-- Basic string operations
-- ==========================================================

/-- Python `str.lstrip()`. -/
def lstrip (s : Str) : Str := s.dropWhile isSpacePy

/-- Python `str.rstrip()`. -/
def rstrip (s : Str) : Str := ((s.reverse).dropWhile isSpacePy).reverse

/-- Python `str.strip()`. -/
def stripStr (s : Str) : Str := rstrip (lstrip s)

/-- Split on newline characters (model of `str.splitlines` / `split("\n")`
for newline-separated text). -/
def splitNl : Str → List Str
  | [] => [[]]
  | c :: rest =>
    if c = '\n' then [] :: splitNl rest
    else
      match splitNl rest with
      | [] => [[c]]
      | l :: ls => (c :: l) :: ls

/-- Python `"\n".join`. -/
def joinNl (L : List Str) : Str := List.intercalate ['\n'] L

/-- Does `pat` occur at position `i` of `s`? -/
def occursAtB (pat s : Str) (i : Nat) : Bool := pat.isPrefixOf (s.drop i)

/-- Substring membership, Python `pat in s`. -/
def containsSub (pat s : Str) : Bool :=
  (List.range (s.length + 1)).any (occursAtB pat s)

/-- First index at which the predicate holds, scanning `i, i+1, ...` as long
as `fuel` lasts. -/
def firstIdxAux (p : Nat → Bool) : Nat → Nat → Option Nat
  | 0, _ => none
  | n + 1, i => if p i then some i else firstIdxAux p n (i + 1)

/-- Least `i < n` with `p i`. -/
def firstIdx (p : Nat → Bool) (n : Nat) : Option Nat := firstIdxAux p n 0

/-- First index of an occurrence of `pat` in `s`. -/
def findSub (pat s : Str) : Option Nat :=
  firstIdx (occursAtB pat s) (s.length + 1)

/-- Python `str.split()` with no argument: maximal runs of non-whitespace.
The fuel argument only bounds the recursion depth (one unit per consumed
character); `splitWs` supplies the input length, which always suffices. -/
def splitWsF : Nat → Str → List Str
  | _, [] => []
  | 0, _ :: _ => []
  | fuel + 1, c :: rest =>
    if isSpacePy c then splitWsF fuel rest
    else (c :: rest.takeWhile (fun d => !isSpacePy d)) ::
      splitWsF fuel (rest.dropWhile (fun d => !isSpacePy d))

/-- Python `str.split()` with no argument. -/
def splitWs (s : Str) : List Str := splitWsF s.length s

/-- Python `len(s.split())`: number of whitespace-separated words. -/
def wordCount (s : Str) : Nat := (splitWs s).length

-- ==========================================================
-- A small deterministic matcher for the regexes of the source.
-- Every regex used by email_cleaner.py alternates literals and
-- character-class repetitions whose classes are disjoint from the
-- following token's first character, so Python's backtracking search
-- coincides with maximal-munch matching, which is what `matchToks`
-- implements.
-- ==========================================================

/-- One token of a source regex. -/
inductive Tok where
  | lit (l : Str)             -- a literal character sequence
  | rep (n : Nat) (p : Char → Bool)  -- exactly n characters of a class
  | opt (p : Char → Bool)     -- zero or one character of a class
  | star (p : Char → Bool)    -- zero or more characters, maximal munch
  | plus (p : Char → Bool)    -- one or more characters, maximal munch

/-- Does the token sequence match a prefix of `s`? -/
def matchToks : List Tok → Str → Bool
  | [], _ => true
  | Tok.lit l :: ts, s =>
    if l.isPrefixOf s then matchToks ts (s.drop l.length) else false
  | Tok.rep n p :: ts, s =>
    if (s.take n).length = n && (s.take n).all p then matchToks ts (s.drop n)
    else false
  | Tok.opt p :: ts, s =>
    match s with
    | [] => matchToks ts []
    | c :: r => if p c then matchToks ts r else matchToks ts (c :: r)
  | Tok.star p :: ts, s => matchToks ts (s.dropWhile p)
  | Tok.plus p :: ts, s =>
    match s with
    | [] => false
    | c :: r => if p c then matchToks ts (r.dropWhile p) else false

/-- Unanchored search (Python `re.search`): try every suffix. -/
def searchToks (ts : List Tok) : Str → Bool
  | [] => matchToks ts []
  | c :: r => matchToks ts (c :: r) || searchToks ts r

/-- Search anchored at line starts (Python `re.MULTILINE` with `^`). -/
def searchAfterNl (ts : List Tok) : Str → Bool
  | [] => false
  | c :: r => (c = '\n' && matchToks ts r) || searchAfterNl ts r

/-- Match at the start of the text or just after any newline. -/
def searchLineStarts (ts : List Tok) (s : Str) : Bool :=
  matchToks ts s || searchAfterNl ts s

-- ==========================================================
-- email_cleaner.strip_quoted
-- ==========================================================

/-- Python `ln.strip().startswith(">")`. -/
def startsGT (l : Str) : Bool :=
  match l.dropWhile isSpacePy with
  | '>' :: _ => true
  | _ => false

/-- Drop every line whose stripped form starts with `>`,
re-joining with newlines (source line 66). -/
def dropQuotedLines (s : Str) : Str :=
  joinNl ((splitNl s).filter (fun l => !startsGT l))

/-- Does the case-sensitive DOTALL regex of source line 68
(literal "On ", then at least one arbitrary character, then literal
"wrote:") match starting at position `i`?  Only the match start matters,
because the source keeps `re.split(...)[0]`. -/
def onWroteAtB (s : Str) (i : Nat) : Bool :=
  occursAtB (str "On ") s i && containsSub (str "wrote:") (s.drop (i + 4))

/-- `re.split(r"On .+?wrote:", body, flags=re.DOTALL)[0]`: the prefix
before the leftmost match. -/
def truncOnWrote (s : Str) : Str :=
  match firstIdx (onWroteAtB s) (s.length + 1) with
  | some i => s.take i
  | none => s

/-- The regex of source line 70: newline, optional whitespace, "On",
whitespace, a word, a comma — matched at the start of the suffix. -/
def matchNlOn (t : Str) : Bool :=
  matchToks [Tok.lit ['\n'], Tok.star isSpacePy, Tok.lit (str "On"),
    Tok.plus isSpacePy, Tok.plus isWordChar, Tok.lit [',']] t

/-- `re.split(r"\n\s*On\s+\w+,", body)[0]`. -/
def truncNlOn (s : Str) : Str :=
  match firstIdx (fun i => matchNlOn (s.drop i)) (s.length + 1) with
  | some i => s.take i
  | none => s

/-- `strip_quoted` from email_cleaner.py (lines 63-71). -/
def strip_quoted (body : Str) : Str :=
  stripStr (truncNlOn (truncOnWrote (dropQuotedLines body)))

-- ==========================================================
-- email_cleaner.strip_signature
-- ==========================================================

/-- `re.sub(r"Sent from my .+", "", line)` restricted to one
newline-free line: the greedy tail runs to the end of the line, so the
leftmost match truncates the line at its start.  A match needs at least
one character after the 13-character literal. -/
def truncSentFromMyLine (l : Str) : Str :=
  match firstIdx
      (fun i => occursAtB (str "Sent from my ") l i && decide (i + 13 < l.length))
      (l.length + 1) with
  | some i => l.take i
  | none => l

/-- `re.sub(r"Sent from my .+", "", body)`: the pattern cannot cross a
newline, so it acts independently on each line. -/
def removeSentFromMy (s : Str) : Str :=
  joinNl ((splitNl s).map truncSentFromMyLine)

/-- `body.split("--", 1)[0]` when "--" occurs (otherwise the body
unchanged): truncation at the first occurrence of the delimiter. -/
def ddTrunc (body : Str) : Str :=
  match findSub (str "--") body with
  | some i => body.take i
  | none => body

/-- `strip_signature` from email_cleaner.py (lines 74-81): the "--"
truncation, then the trailer removal, then `.strip()`. -/
def strip_signature (body : Str) : Str :=
  stripStr (removeSentFromMy (ddTrunc body))

-- ==========================================================
-- email_cleaner.strip_email_metadata
-- ==========================================================

/-- `re.sub` deleting every maximal run of at least 20 underscores
(fuel-bounded recursion, one unit per consumed character). -/
def removeUnderscoreRunsF : Nat → Str → Str
  | _, [] => []
  | 0, l => l
  | fuel + 1, c :: rest =>
    if c = '_' then
      let run := rest.takeWhile (fun d => d = '_')
      let rest' := rest.dropWhile (fun d => d = '_')
      if 19 ≤ run.length then removeUnderscoreRunsF fuel rest'
      else (c :: run) ++ removeUnderscoreRunsF fuel rest'
    else c :: removeUnderscoreRunsF fuel rest

/-- `re.sub(r'_' * 20 + '+', '', s)` of source line 87. -/
def removeUnderscoreRuns (s : Str) : Str := removeUnderscoreRunsF s.length s

/-- `re.match` of the header regex at the start of a line,
case-insensitively; the trailing `\s*` imposes nothing. -/
def isHeaderLine (l : Str) : Bool :=
  [str "from:", str "sent:", str "to:", str "subject:", str "cc:", str "bcc:"].any
    (fun p => p.isPrefixOf (lowerStr l))

/-- The two caution-phrase tests of source lines 98-100. -/
def isCautionLine (l : Str) : Bool :=
  containsSub (str "email originated from an external sender") (lowerStr l) ||
  containsSub (str "do not click links") (lowerStr l)

/-- `line.strip().startswith('‚ö†')` (the literal appearing in the source). -/
def isWarnSymbolLine (l : Str) : Bool :=
  (str "‚ö†").isPrefixOf (lstrip l)

/-- `strip_email_metadata` from email_cleaner.py (lines 84-108). -/
def strip_email_metadata (body : Str) : Str :=
  let b1 := removeUnderscoreRuns body
  let kept := (splitNl b1).filter
    (fun l => !(isHeaderLine l || isCautionLine l || isWarnSymbolLine l))
  stripStr (joinNl kept)

/-- The full Body Sanitizer in the order applied by `process_mbox`
(lines 321-323). -/
def sanitize (body : Str) : Str :=
  strip_email_metadata (strip_signature (strip_quoted body))

-- ==========================================================
-- email_cleaner filtering functions (lines 115-276)
-- ==========================================================

/-- Non-whitespace, regex `\S`. -/
def nonSp (c : Char) : Bool := !isSpacePy c

/-- Regex `[\w-]` / `[\w_-]` (the two classes of the source coincide). -/
def wordDash (c : Char) : Bool := isWordChar c || c = '-'

/-- The regex match `https?://\S+` anchored at the start of `s`:
returns the length of the match if there is one. -/
def tryUrlAt (l s : Str) : Option Nat :=
  if l.isPrefixOf s && ((s.drop l.length).takeWhile nonSp).length ≠ 0 then
    some (l.length + ((s.drop l.length).takeWhile nonSp).length)
  else none

/-- Greedy `s?` tries "https://" first, then "http://". -/
def urlMatchLen (s : Str) : Option Nat :=
  match tryUrlAt (str "https://") s with
  | some n => some n
  | none => tryUrlAt (str "http://") s

theorem tryUrlAt_pos {l s : Str} {n : Nat} (h : tryUrlAt l s = some n) :
    0 < n := by
  unfold tryUrlAt at h
  split at h
  · next hc =>
    cases h
    simp only [Bool.and_eq_true, decide_eq_true_eq] at hc
    omega
  · exact absurd h (by simp)

theorem urlMatchLen_pos {s : Str} {n : Nat} (h : urlMatchLen s = some n) :
    0 < n := by
  unfold urlMatchLen at h
  split at h
  · next heq => cases h; exact tryUrlAt_pos heq
  · exact tryUrlAt_pos h

/-- `re.sub` deleting every URL match (source line 124); fuel-bounded,
one unit per consumed character (a match consumes at least one). -/
def removeUrlsF : Nat → Str → Str
  | _, [] => []
  | 0, l => l
  | fuel + 1, c :: rest =>
    match urlMatchLen (c :: rest) with
    | some n => removeUrlsF fuel ((c :: rest).drop n)
    | none => c :: removeUrlsF fuel rest

/-- `re.sub` deleting every URL match. -/
def removeUrls (s : Str) : Str := removeUrlsF s.length s

/-- `is_url_only` (lines 115-128). -/
def is_url_only (body : Str) : Bool :=
  let stripped := stripStr body
  let bare :=
    [str "https://", str "http://"].any (fun l =>
      l.isPrefixOf stripped &&
      !(stripped.drop l.length).isEmpty && (stripped.drop l.length).all nonSp)
  if bare then true
  else if wordCount (removeUrls body) < 10 && containsSub (str "http") body then
    true
  else false

/-- `is_auto_generated` (lines 131-138). -/
def is_auto_generated (body : Str) : Bool :=
  [str "automatically generated", str "do not reply", str "this is an automated"].any
    (fun p => containsSub p (lowerStr body))

/-- `is_test_message` (lines 141-145). -/
def is_test_message (body subject : Str) : Bool :=
  let combined := lowerStr (body ++ [' '] ++ subject)
  [str "test forward", str "test redirect", str "test email"].any
    (fun p => containsSub p combined)

/-- The phone regex: three digits, optional separator, three digits,
optional separator, four digits.  The separator classes are disjoint
from digits, so the optional pieces are forced. -/
def phoneToks : List Tok :=
  [Tok.rep 3 isDigitCh, Tok.opt isPhoneSep, Tok.rep 3 isDigitCh,
   Tok.opt isPhoneSep, Tok.rep 4 isDigitCh]

/-- `re.search` of the email-address shape: the pattern (one or more
non-spaces, at-sign, one or more non-spaces) matches somewhere iff some
at-sign has a non-space immediately on both sides. -/
def hasAtWithNeighbors : Str → Bool
  | a :: '@' :: b :: rest =>
    (nonSp a && nonSp b) || hasAtWithNeighbors ('@' :: b :: rest)
  | _ :: rest => hasAtWithNeighbors rest
  | [] => false

/-- `is_signature_only` (lines 148-154). -/
def is_signature_only (body : Str) : Bool :=
  if wordCount body < 10 then
    searchToks phoneToks body || hasAtWithNeighbors body
  else false

/-- `is_confirmation_email` (lines 157-165), case-insensitive. -/
def is_confirmation_email (body : Str) : Bool :=
  [(str "confirmation", str "#"), (str "order", str "#"),
   (str "tracking", str "number"), (str "flight", str "#")].any
    (fun pq =>
      searchToks [Tok.lit pq.1, Tok.star isSpacePy, Tok.lit pq.2] (lowerStr body))

/-- Length of the non-greedy match of the image-reference pattern at the
start of `s` (case-insensitive literal, then the shortest run of
non-newline characters, then a closing bracket). -/
def imageRefLen (s : Str) : Option Nat :=
  if (str "[image:").isPrefixOf (lowerStr s) then
    match ((s.drop 7).takeWhile (fun c => c ≠ '\n')).findIdx? (fun c => c = ']') with
    | some j => some (7 + j + 1)
    | none => none
  else none

theorem imageRefLen_pos {s : Str} {n : Nat} (h : imageRefLen s = some n) :
    0 < n := by
  unfold imageRefLen at h
  split at h
  · split at h
    · cases h; omega
    · exact absurd h (by simp)
  · exact absurd h (by simp)

/-- `re.sub` deleting every image reference (source line 171);
fuel-bounded, one unit per consumed character. -/
def removeImageRefsF : Nat → Str → Str
  | _, [] => []
  | 0, l => l
  | fuel + 1, c :: rest =>
    match imageRefLen (c :: rest) with
    | some n => removeImageRefsF fuel ((c :: rest).drop n)
    | none => c :: removeImageRefsF fuel rest

/-- `re.sub` deleting every image reference. -/
def removeImageRefs (s : Str) : Str := removeImageRefsF s.length s

/-- `has_only_image_refs` (lines 168-173). -/
def has_only_image_refs (body : Str) : Bool :=
  if containsSub (str "[image:") (lowerStr body) ||
      containsSub (str "image.png") (lowerStr body) then
    wordCount (removeImageRefs body) < 5
  else false

/-- The six code/CSS patterns of lines 178-185, case-sensitive. -/
def codeTokLists : List (List Tok) :=
  [[Tok.lit (str "\x7b"), Tok.star isSpacePy, Tok.plus wordDash, Tok.star isSpacePy,
    Tok.lit (str ":"), Tok.star isSpacePy, Tok.plus wordDash, Tok.star isSpacePy,
    Tok.lit (str ";")],
   [Tok.lit (str "#"), Tok.plus wordDash, Tok.star isSpacePy, Tok.lit (str "\x7b")],
   [Tok.lit (str "."), Tok.plus wordDash, Tok.star isSpacePy, Tok.lit (str "\x7b")],
   [Tok.lit (str "function"), Tok.star isSpacePy, Tok.lit (str "(")],
   [Tok.lit (str "var"), Tok.plus isSpacePy, Tok.plus isWordChar,
    Tok.star isSpacePy, Tok.lit (str "=")],
   [Tok.lit (str "const"), Tok.plus isSpacePy, Tok.plus isWordChar,
    Tok.star isSpacePy, Tok.lit (str "=")]]

/-- `has_code_or_css` (lines 176-186). -/
def has_code_or_css (body : Str) : Bool :=
  codeTokLists.any (fun ts => searchToks ts body)

/-- The seven meeting-invite patterns of lines 191-199, case-insensitive. -/
def meetingTokLists : List (List Tok) :=
  [[Tok.lit (str "join"), Tok.plus isSpacePy, Tok.lit (str "zoom"),
    Tok.plus isSpacePy, Tok.lit (str "meeting")],
   [Tok.lit (str "meeting"), Tok.plus isSpacePy, Tok.lit (str "id:"),
    Tok.star isSpacePy, Tok.plus isDigitCh],
   [Tok.lit (str "passcode:"), Tok.star isSpacePy, Tok.plus isDigitCh],
   [Tok.lit (str "dial"), Tok.plus isSpacePy, Tok.lit (str "by"),
    Tok.plus isSpacePy, Tok.lit (str "your"), Tok.plus isSpacePy,
    Tok.lit (str "location")],
   [Tok.lit (str "join"), Tok.plus isSpacePy, Tok.lit (str "teams"),
    Tok.plus isSpacePy, Tok.lit (str "meeting")],
   [Tok.lit (str "google"), Tok.plus isSpacePy, Tok.lit (str "meet")],
   [Tok.lit (str "one"), Tok.plus isSpacePy, Tok.lit (str "tap"),
    Tok.plus isSpacePy, Tok.lit (str "mobile")]]

/-- `is_meeting_invite` (lines 189-200). -/
def is_meeting_invite (body : Str) : Bool :=
  meetingTokLists.any (fun ts => searchToks ts (lowerStr body))

/-- Search a line-start-anchored predicate (`re.MULTILINE` with `^`). -/
def searchAfterNlP (f : Str → Bool) : Str → Bool
  | [] => false
  | c :: r => (c = '\n' && f r) || searchAfterNlP f r

/-- Predicate version of `searchLineStarts`. -/
def searchLineStartsP (f : Str → Bool) (s : Str) : Bool :=
  f s || searchAfterNlP f s

/-- The tail `\s+.+` behind a literal: at least one whitespace character,
then (after backtracking) at least one non-newline character. -/
def hasSpacesThenAny : Str → Bool
  | c :: d :: r => isSpacePy c && (d ≠ '\n' || hasSpacesThenAny (d :: r))
  | _ => false

/-- `has_email_headers` (lines 203-213), `re.MULTILINE | re.IGNORECASE`. -/
def has_email_headers (body : Str) : Bool :=
  let lb := lowerStr body
  searchLineStarts [Tok.lit (str "from:"), Tok.plus isSpacePy, Tok.plus nonSp] lb ||
  searchLineStarts [Tok.lit (str "sent:"), Tok.plus isSpacePy,
    Tok.plus isWordChar, Tok.lit (str ",")] lb ||
  searchLineStarts [Tok.lit (str "to:"), Tok.plus isSpacePy, Tok.plus nonSp] lb ||
  searchLineStartsP
    (fun t => (str "subject:").isPrefixOf t && hasSpacesThenAny (t.drop 8)) lb ||
  containsSub (str "email originated from an external sender") lb ||
  containsSub (str "________________________________") lb

/-- The five form-data patterns of lines 218-224, case-insensitive. -/
def formTokLists : List (List Tok) :=
  [[Tok.lit (str "account:"), Tok.star isSpacePy, Tok.plus isWordChar],
   [Tok.lit (str "username:"), Tok.star isSpacePy, Tok.plus isWordChar],
   [Tok.lit (str "balance:"), Tok.star isSpacePy, Tok.lit (str "$"),
    Tok.plus isDigitCh],
   [Tok.lit (str "user"), Tok.plus isSpacePy, Tok.lit (str "id:"),
    Tok.star isSpacePy, Tok.plus isDigitCh],
   [Tok.lit (str "password:"), Tok.star isSpacePy, Tok.plus isWordChar]]

/-- `has_form_data` (lines 216-227): at least two of the patterns match. -/
def has_form_data (body : Str) : Bool :=
  2 ≤ (formTokLists.countP (fun ts => searchToks ts (lowerStr body)))

/-- `is_meaningful` (lines 230-276): the rejection cascade. -/
def is_meaningful (body : Str) (subject : Str) : Bool :=
  if (stripStr body).isEmpty then false
  else if !(stripStr body).isEmpty &&
      (stripStr body).all (fun c => !isWordChar c && !isSpacePy c) then false
  else if containsSub (str "reacted via Gmail") body then false
  else if lowerStr (stripStr body) == str "unsubscribe" then false
  else if is_url_only body then false
  else if is_auto_generated body then false
  else if is_test_message body subject then false
  else if is_signature_only body then false
  else if is_confirmation_email body then false
  else if has_only_image_refs body then false
  else if has_code_or_css body then false
  else if is_meeting_invite body then false
  else if has_email_headers body then false
  else if has_form_data body then false
  else true

/-- `intent_from_subject_or_body` (lines 279-296). -/
def intent_from_subject_or_body (subject body : Str) : Str :=
  let s := stripStr (lowerStr subject)
  let b := stripStr (lowerStr body)
  if containsSub (str "unsubscribe") s || b == str "unsubscribe" then
    str "Write an email asking to unsubscribe."
  else if (str "re:").isPrefixOf s then
    str "Write an email responding to a message."
  else if (str "fwd:").isPrefixOf s || (str "fw:").isPrefixOf s then
    str "Write a forwarded message."
  else if wordCount body ≤ 4 then
    str "Write a brief one-line email in your tone."
  else str "Write an email in your tone."

-- ==========================================================
-- email_cleaner.extract_clean_text (lines 11-60)
-- ==========================================================

/-- One content part yielded by `msg.walk()`: content type, the
Content-Disposition header ("" when absent), and the decoded payload
(`none` models both a missing payload and a decode failure, which the
source skips alike). -/
structure MsgPart where
  ctype : Str
  disp : Str
  payload : Option Str

/-- The content of a raw message: multipart (the walked parts) or a
single payload.  A single-part message still carries its
Content-Disposition header, but the source's non-multipart branch
(lines 47-51) never reads it. -/
inductive MsgContent where
  | multi (parts : List MsgPart)
  | single (disp : Str) (payload : Option Str)

/-- Python truthiness of an optional string: `None` and `""` are falsy. -/
def pyTruthy : Option Str → Bool
  | none => false
  | some s => !s.isEmpty

/-- The part-walking loop of lines 19-45, accumulating the first
plain-text part and the first html part.  `soup` models the
BeautifulSoup conversion (script/style removal plus `get_text`). -/
def walkAux (soup : Str → Str) (tp hp : Option Str) : List MsgPart → Option Str × Option Str
  | [] => (tp, hp)
  | p :: rest =>
    if containsSub (str "attachment") p.disp then walkAux soup tp hp rest
    else match p.payload with
      | none => walkAux soup tp hp rest
      | some decoded =>
        if p.ctype == str "text/plain" && !pyTruthy tp then
          walkAux soup (some decoded) hp rest
        else if p.ctype == str "text/html" && !pyTruthy hp then
          walkAux soup tp (some (soup decoded)) rest
        else walkAux soup tp hp rest

/-- `re.sub` deleting every `<...>` tag: a less-than sign, one or more
non-greater-than characters, a greater-than sign. -/
def removeTagsF : Nat → Str → Str
  | _, [] => []
  | 0, l => l
  | fuel + 1, c :: rest =>
    if c = '<' then
      match rest.findIdx? (fun d => d = '>') with
      | some j =>
        if 1 ≤ j then removeTagsF fuel (rest.drop (j + 1))
        else c :: removeTagsF fuel rest
      | none => c :: removeTagsF fuel rest
    else c :: removeTagsF fuel rest

/-- `re.sub` deleting every tag (fuel-bounded, one unit per character). -/
def removeTags (s : Str) : Str := removeTagsF s.length s

/-- Index of the last occurrence of `c` in `l`. -/
def lastIdxOf (c : Char) (l : Str) : Option Nat :=
  match (l.reverse).findIdx? (fun d => d = c) with
  | some j => some (l.length - 1 - j)
  | none => none

/-- `re.sub(three-or-more newlines separated by whitespace, two newlines)`:
the leftmost match starts at a newline whose following maximal whitespace
run contains at least three newlines in total, and (greedy pieces) the
match extends through the last newline of that run. -/
def collapseNlF : Nat → Str → Str
  | _, [] => []
  | 0, l => l
  | fuel + 1, c :: rest =>
    if c = '\n' then
      let run := (c :: rest).takeWhile isSpacePy
      if 3 ≤ run.count '\n' then
        '\n' :: '\n' ::
          collapseNlF fuel ((c :: rest).drop ((lastIdxOf '\n' run).getD 0 + 1))
      else c :: collapseNlF fuel rest
    else c :: collapseNlF fuel rest

/-- The newline-collapsing `re.sub` (fuel-bounded, one unit per
consumed character; a replaced span consumes at least three). -/
def collapseNl (s : Str) : Str := collapseNlF s.length s

/-- `extract_clean_text` from email_cleaner.py (lines 11-60). -/
def extract_clean_text (soup : Str → Str) (m : MsgContent) : Str :=
  let th : Option Str × Option Str :=
    match m with
    | MsgContent.multi parts => walkAux soup none none parts
    | MsgContent.single _ payload => (payload, none)
  let body :=
    if pyTruthy th.1 then th.1.getD []
    else if pyTruthy th.2 then th.2.getD []
    else []
  stripStr (collapseNl (removeTags body))

-- ==========================================================
-- email_cleaner.process_mbox (lines 299-363)
-- ==========================================================

/-- One message of the mailbox: the four headers the source reads (raw
values, "" when absent) plus the content parts. -/
structure RawMsg where
  msgid : Str
  fromAddr : Str
  subject : Str
  inReplyTo : Str
  content : MsgContent

/-- One outbound record of the source's loop (lines 330-335). -/
structure OutMsg where
  msgid : Str
  inreply : Str
  subject : Str
  body : Str
deriving DecidableEq

/-- One chat message of the OpenAI format. -/
structure ChatMsg where
  role : Str
  content : Str
deriving DecidableEq

/-- One training example: its "messages" list. -/
abbrev Example := List ChatMsg

/-- The example emitted by `process_mbox` for a user/assistant pair. -/
def mkExample (instr resp : Str) : Example :=
  [⟨str "user", instr⟩, ⟨str "assistant", resp⟩]

/-- Assignment `d[k] = v` into a Python dict modelled as an association
list in insertion order: an existing key keeps its position and gets the
new value, a new key is appended. -/
def dictInsert {V : Type} (d : List (Str × V)) (k : Str) (v : V) : List (Str × V) :=
  if d.any (fun p => p.1 == k) then
    d.map (fun p => if p.1 == k then (p.1, v) else p)
  else d ++ [(k, v)]

/-- `{o["msgid"]: o for o in outbound}`: fold the comprehension into a
dict. -/
def dictOfList {V : Type} (l : List (Str × V)) : List (Str × V) :=
  l.foldl (fun d kv => dictInsert d kv.1 kv.2) []

/-- `.values()` of the dict model. -/
def dictValues {V : Type} (d : List (Str × V)) : List V := d.map Prod.snd

/-- `d[k]` / `k in d` of the dict model. -/
def dictFind {V : Type} (d : List (Str × V)) (k : Str) : Option V :=
  (d.find? (fun p => p.1 == k)).map Prod.snd

/-- The sequence of keys in first-encounter order with later duplicates
erased (the key order of a Python dict). -/
def firstOccur : List Str → List Str
  | [] => []
  | k :: ks => k :: firstOccur (ks.filter (fun x => !(x == k)))
  termination_by l => l.length
  decreasing_by
    simp only [List.length_cons]
    exact Nat.lt_succ_of_le (List.length_filter_le _ _)

/-- The mailbox loop of lines 315-337: returns the outbound records in
order and the inbound dict. -/
def collectMsgs (soup : Str → Str) (msgs : List RawMsg) (user : Str) :
    List OutMsg × List (Str × Str) :=
  msgs.foldl
    (fun acc m =>
      let msgid := stripStr m.msgid
      let body := sanitize (extract_clean_text soup m.content)
      if !is_meaningful body m.subject then acc
      else if containsSub (lowerStr user) (lowerStr m.fromAddr) then
        (acc.1 ++ [⟨msgid, stripStr m.inReplyTo, m.subject, body⟩], acc.2)
      else (acc.1, dictInsert acc.2 msgid body))
    ([], [])

/-- Line 340: deduplicate outbound records through the dict comprehension. -/
def uniqueOutbound (outs : List OutMsg) : List OutMsg :=
  dictValues (dictOfList (outs.map (fun o => (o.msgid, o))))

/-- The example built for one unique outbound record (lines 344-361). -/
def buildExample (inbound : List (Str × Str)) (o : OutMsg) : Example :=
  if o.inreply ≠ [] && (dictFind inbound o.inreply).isSome then
    mkExample ((dictFind inbound o.inreply).getD []) o.body
  else
    mkExample (intent_from_subject_or_body o.subject o.body) o.body

/-- `process_mbox` from email_cleaner.py (lines 299-363). -/
def process_mbox (soup : Str → Str) (msgs : List RawMsg) (user : Str) :
    List Example :=
  let oi := collectMsgs soup msgs user
  (uniqueOutbound oi.1).map (buildExample oi.2)

-- ==========================================================
-- lib/prompt_enhancer.py
-- ==========================================================

/-- `GENERIC_PROMPTS` from lib/config.py. -/
def GENERIC_PROMPTS : List Str :=
  [str "write an email in your tone",
   str "write an email in your tone.",
   str "write an email with your tone"]

/-- A training example as the enhancer sees it; `none` models a dict
without a "messages" key (skipped by the source). -/
structure PyExample where
  messages : Option (List ChatMsg)
deriving DecidableEq

/-- `next((m["content"] for m in msgs if m["role"] == role), "")`. -/
def firstRole (role : Str) (msgs : List ChatMsg) : Str :=
  ((msgs.find? (fun m => m.role == role)).map (fun m => m.content)).getD []

/-- The numbered-list parsing loop of prompt_enhancer.py lines 50-67. -/
def parseNumbered (text : Str) : List Str :=
  (splitNl (stripStr text)).foldl
    (fun acc line =>
      let l := stripStr line
      match l with
      | [] => acc
      | c :: _ =>
        if c.isDigit then
          match l.findIdx? Char.isAlpha with
          | some i => acc ++ [stripStr (l.drop i)]
          | none => acc
        else acc ++ [l])
    []

/-- `generate_specific_prompts_batch` (lines 11-67): the remote reply for
the batch is `respText`; an empty body list short-circuits without a
remote call. -/
def generate_specific_prompts_batch (respText : Str) (bodies : List Str) :
    List Str :=
  if bodies.isEmpty then [] else parseNumbered respText

/-- Lines 86-97: the indices of the generic-prompt examples paired with
their response bodies. -/
def genericEntries (examples : List PyExample) : List (Nat × Str) :=
  examples.enum.filterMap
    (fun p =>
      match p.2.messages with
      | none => none
      | some msgs =>
        if GENERIC_PROMPTS.any
            (fun g => g == stripStr (lowerStr (firstRole (str "user") msgs))) then
          some (p.1, firstRole (str "assistant") msgs)
        else none)

/-- Line 107: `(len(generic_bodies) + BATCH - 1) // BATCH`. -/
def numBatchesOf (B G : Nat) : Nat := (G + B - 1) / B

/-- The batch loop of lines 109-117: one remote call per batch, results
concatenated in batch order. -/
def collectRefined (B : Nat) (respond : Nat → Str) (bodies : List Str) : List Str :=
  (List.range (numBatchesOf B bodies.length)).foldl
    (fun acc bi =>
      acc ++ generate_specific_prompts_batch (respond bi)
        ((bodies.drop (bi * B)).take B))
    []

/-- One replacement step of lines 129-139: rebuild the example at index
`ip.1` with the refined prompt `ip.2`, keeping its assistant message. -/
def enhanceStep (exs : List PyExample) (ip : Nat × Str) : List PyExample :=
  match exs.get? ip.1 with
  | some ex =>
    exs.set ip.1
      ⟨some [⟨str "user", ip.2⟩,
             ⟨str "assistant", firstRole (str "assistant") (ex.messages.getD [])⟩]⟩
  | none => exs

/-- `enhance_generic_prompts` (lines 70-144).  `B` is
`PROMPT_ENHANCEMENT_BATCH_SIZE` (10 in lib/config.py) and `respond bi`
is the remote's reply text for batch `bi`; the returned number counts
the remote calls, one per batch. -/
def enhance_generic_prompts (B : Nat) (respond : Nat → Str)
    (examples : List PyExample) : List PyExample × Nat :=
  let generics := genericEntries examples
  if generics.isEmpty then (examples, 0)
  else
    let G := generics.length
    let refined := collectRefined B respond (generics.map Prod.snd)
    let refinedPadded :=
      refined ++ List.replicate (G - refined.length) (str "Write an email in your tone.")
    (((generics.map Prod.fst).zip refinedPadded).foldl enhanceStep examples,
      numBatchesOf B G)

-- ==========================================================
-- prepare_data.split_dataset (lines 71-95)
-- ==========================================================

/-- `split_dataset`: `shuffle seed xs` models
`random.seed(seed); random.shuffle(xs)` on a copy — a deterministic
permutation chosen by the seed alone.  `int(total * ratio)` truncates,
which for a non-negative ratio is the floor.  Returns
(training, validation). -/
def split_dataset {α : Type} (shuffle : Nat → List α → List α)
    (examples : List α) (val_ratio : ℚ) (seed : Nat) : List α × List α :=
  let shuffled := shuffle seed examples
  let val_count := (Int.floor ((shuffled.length : ℚ) * val_ratio)).toNat
  (shuffled.drop val_count, shuffled.take val_count)

-- ==========================================================
-- Lemma layer 1: firstIdx, occurrences, substrings
-- ==========================================================

theorem firstIdxAux_some {p : Nat → Bool} :
    ∀ {n i j : Nat}, firstIdxAux p n i = some j →
      p j = true ∧ i ≤ j ∧ ∀ k, i ≤ k → k < j → p k = false := by
  intro n
  induction n with
  | zero => intro i j h; simp [firstIdxAux] at h
  | succ n ih =>
    intro i j h
    unfold firstIdxAux at h
    by_cases hpi : p i = true
    · rw [if_pos hpi] at h
      cases h
      exact ⟨hpi, le_refl _, fun k hk hk2 => absurd hk (by omega)⟩
    · rw [if_neg hpi] at h
      obtain ⟨hp, hij, hmin⟩ := ih h
      refine ⟨hp, by omega, fun k hk hk2 => ?_⟩
      rcases Nat.eq_or_lt_of_le hk with heq | hlt
      · rw [← heq]; exact Bool.eq_false_iff.mpr hpi
      · exact hmin k (by omega) hk2

theorem firstIdxAux_none {p : Nat → Bool} :
    ∀ {n i : Nat}, firstIdxAux p n i = none →
      ∀ k, i ≤ k → k < i + n → p k = false := by
  intro n
  induction n with
  | zero => intro i _ k hk1 hk2; omega
  | succ n ih =>
    intro i h k hk1 hk2
    unfold firstIdxAux at h
    by_cases hpi : p i = true
    · rw [if_pos hpi] at h; cases h
    · rw [if_neg hpi] at h
      rcases Nat.eq_or_lt_of_le hk1 with heq | hlt
      · rw [← heq]; exact Bool.eq_false_iff.mpr hpi
      · exact ih h k (by omega) (by omega)

theorem firstIdx_some {p : Nat → Bool} {n j : Nat} (h : firstIdx p n = some j) :
    p j = true ∧ ∀ k, k < j → p k = false := by
  obtain ⟨hp, _, hmin⟩ := firstIdxAux_some h
  exact ⟨hp, fun k hk => hmin k (Nat.zero_le _) hk⟩

theorem firstIdx_none {p : Nat → Bool} {n : Nat} (h : firstIdx p n = none) :
    ∀ k, k < n → p k = false := by
  intro k hk
  exact firstIdxAux_none h k (Nat.zero_le _) (by omega)

theorem firstIdx_of_false {p : Nat → Bool} {n : Nat}
    (h : ∀ k, p k = false) : firstIdx p n = none := by
  unfold firstIdx
  suffices hgen : ∀ m i, firstIdxAux p m i = none by exact hgen n 0
  intro m
  induction m with
  | zero => intro i; rfl
  | succ m ih => intro i; unfold firstIdxAux; simp [h i, ih]

theorem occursAtB_iff {pat s : Str} {i : Nat} :
    occursAtB pat s i = true ↔ pat <+: s.drop i := by
  unfold occursAtB
  exact List.isPrefixOf_iff_prefix

theorem occursAtB_take {pat s : Str} {n i : Nat}
    (h : occursAtB pat (s.take n) i = true) : occursAtB pat s i = true := by
  rw [occursAtB_iff] at h ⊢
  rw [List.drop_take] at h
  exact h.trans ( List.take_prefix _ _)

theorem occursAtB_drop {pat s : Str} {a i : Nat}
    (h : occursAtB pat (s.drop a) i = true) : occursAtB pat s (a + i) = true := by
  rw [occursAtB_iff] at h ⊢
  rwa [List.drop_drop] at h

theorem containsSub_iff {pat s : Str} :
    containsSub pat s = true ↔ ∃ i, occursAtB pat s i = true := by
  unfold containsSub
  rw [List.any_eq_true]
  constructor
  · rintro ⟨i, _, hp⟩; exact ⟨i, hp⟩
  · rintro ⟨i, hp⟩
    by_cases hi : i ≤ s.length
    · exact ⟨i, by simp [List.mem_range]; omega, hp⟩
    · refine ⟨s.length, by simp, ?_⟩
      rw [occursAtB_iff] at hp ⊢
      rw [List.drop_eq_nil_of_le (by omega)] at hp
      rw [List.drop_eq_nil_of_le (le_refl _)]
      exact hp

theorem containsSub_infix_iff {pat s : Str} :
    containsSub pat s = true ↔ pat <:+: s := by
  rw [containsSub_iff]
  constructor
  · rintro ⟨i, hp⟩
    rw [occursAtB_iff] at hp
    exact hp.isInfix.trans ( List.drop_suffix i s).isInfix
  · rintro ⟨u, v, huv⟩
    refine ⟨u.length, ?_⟩
    rw [occursAtB_iff, ← huv, List.append_assoc, List.drop_left]
    exact ⟨v, rfl⟩

theorem containsSub_mono {pat s t : Str} (hst : s <:+: t)
    (h : containsSub pat s = true) : containsSub pat t = true := by
  rw [containsSub_infix_iff] at h ⊢
  exact h.trans hst

-- ==========================================================
-- Lemma layer 2: strips as take/drop, idempotence
-- ==========================================================

theorem dropWhile_eq_drop (p : Char → Bool) (s : Str) :
    s.dropWhile p = s.drop (s.takeWhile p).length := by
  calc s.dropWhile p
      = List.drop (s.takeWhile p).length (s.takeWhile p ++ s.dropWhile p) :=
        (List.drop_left _ _).symm
    _ = s.drop (s.takeWhile p).length := by
        rw [List.takeWhile_append_dropWhile]

theorem lstrip_eq_drop (s : Str) : lstrip s = s.drop (s.takeWhile isSpacePy).length :=
  dropWhile_eq_drop _ s

theorem rstrip_eq_take (s : Str) :
    rstrip s = s.take (s.length - (s.reverse.takeWhile isSpacePy).length) := by
  unfold rstrip
  rw [dropWhile_eq_drop, List.reverse_drop, List.reverse_reverse,
    List.length_reverse]

theorem stripStr_eq_take_drop (s : Str) :
    ∃ a m, stripStr s = (s.drop a).take m := by
  unfold stripStr
  rw [lstrip_eq_drop, rstrip_eq_take]
  exact ⟨_, _, rfl⟩

theorem stripStr_infix_self (s : Str) : stripStr s <:+: s := by
  obtain ⟨a, m, h⟩ := stripStr_eq_take_drop s
  rw [h]
  exact ( List.take_prefix _ _).isInfix.trans ( List.drop_suffix a s).isInfix

theorem dropWhile_idem (p : Char → Bool) (s : Str) :
    (s.dropWhile p).dropWhile p = s.dropWhile p := by
  induction s with
  | nil => rfl
  | cons c rest ih =>
    by_cases h : p c
    · simp [List.dropWhile, h, ih]
    · simp [List.dropWhile, h]

theorem lstrip_idem (s : Str) : lstrip (lstrip s) = lstrip s :=
  dropWhile_idem _ s

theorem rstrip_idem (s : Str) : rstrip (rstrip s) = rstrip s := by
  unfold rstrip
  rw [List.reverse_reverse, dropWhile_idem]

theorem lstrip_eq_self_of_head {s : Str}
    (h : ∀ c, s.head? = some c → isSpacePy c = false) : lstrip s = s := by
  cases s with
  | nil => rfl
  | cons d t =>
    have hd := h d rfl
    simp [lstrip, List.dropWhile, hd]

theorem head_not_space_of_lstripped {s : Str} (h : lstrip s = s) :
    ∀ c, s.head? = some c → isSpacePy c = false := by
  cases s with
  | nil => intro c hc; cases hc
  | cons d t =>
    intro c hc
    injection hc with hdc
    rw [← hdc]
    by_contra hcon
    have hd : isSpacePy d = true := by simpa using hcon
    have hlen : (lstrip (d :: t)).length ≤ t.length := by
      simp only [lstrip, List.dropWhile, hd]
      exact ( List.dropWhile_suffix _).length_le
    rw [h] at hlen
    simp at hlen

theorem rstrip_head? {s : Str} {c : Char} (h : (rstrip s).head? = some c) :
    s.head? = some c := by
  rw [rstrip_eq_take] at h
  rcases s with _ | ⟨d, t⟩
  · simp at h
  · rcases hm : (d :: t).length - ((d :: t).reverse.takeWhile isSpacePy).length
      with _ | m
    · rw [hm] at h; simp at h
    · rw [hm] at h
      simpa using h

theorem lstrip_rstrip_of_lstripped {s : Str} (h : lstrip s = s) :
    lstrip (rstrip s) = rstrip s := by
  apply lstrip_eq_self_of_head
  intro c hc
  exact head_not_space_of_lstripped h c (rstrip_head? hc)

theorem stripStr_idem (s : Str) : stripStr (stripStr s) = stripStr s := by
  unfold stripStr
  rw [lstrip_rstrip_of_lstripped (lstrip_idem s), rstrip_idem]

-- ==========================================================
-- Lemma layer 3: splitNl / joinNl structure
-- ==========================================================

theorem splitNl_nil : splitNl [] = [[]] := rfl

theorem splitNl_cons_nl (rest : Str) : splitNl ('\n' :: rest) = [] :: splitNl rest := by
  simp [splitNl]

theorem splitNl_ne_nil (s : Str) : splitNl s ≠ [] := by
  induction s with
  | nil => simp [splitNl]
  | cons c rest ih =>
    by_cases hc : c = '\n'
    · subst hc; simp [splitNl]
    · unfold splitNl
      rw [if_neg hc]
      rcases h : splitNl rest with _ | ⟨l, ls⟩
      · simp
      · simp

theorem splitNl_cons_other {c : Char} (hc : c ≠ '\n') {rest : Str} {l : Str}
    {ls : List Str} (h : splitNl rest = l :: ls) :
    splitNl (c :: rest) = (c :: l) :: ls := by
  unfold splitNl
  rw [if_neg hc, h]

theorem joinNl_nil : joinNl [] = [] := rfl

theorem joinNl_single (l : Str) : joinNl [l] = l := by
  simp [joinNl, List.intercalate]

theorem joinNl_cons (l m : Str) (L : List Str) :
    joinNl (l :: m :: L) = l ++ '\n' :: joinNl (m :: L) := by
  simp [joinNl, List.intercalate, List.intersperse]

theorem joinNl_cons_head (c : Char) (l : Str) (ls : List Str) :
    joinNl ((c :: l) :: ls) = c :: joinNl (l :: ls) := by
  cases ls with
  | nil => simp [joinNl_single]
  | cons m L => rw [joinNl_cons, joinNl_cons]; simp

theorem joinNl_splitNl (s : Str) : joinNl (splitNl s) = s := by
  induction s with
  | nil => simpa [splitNl_nil] using joinNl_single []
  | cons c rest ih =>
    by_cases hc : c = '\n'
    · subst hc
      rw [splitNl_cons_nl]
      obtain ⟨l, ls, h⟩ := List.exists_cons_of_ne_nil (splitNl_ne_nil rest)
      rw [h]
      rw [h] at ih
      show joinNl ([] :: l :: ls) = '\n' :: rest
      rw [joinNl_cons]
      simpa using ih
    · obtain ⟨l, ls, h⟩ := List.exists_cons_of_ne_nil (splitNl_ne_nil rest)
      rw [splitNl_cons_other hc h, joinNl_cons_head, ← h, ih]

theorem noNl_of_mem_splitNl {s l : Str} (h : l ∈ splitNl s) : '\n' ∉ l := by
  induction s generalizing l with
  | nil => rw [splitNl_nil] at h; simp at h; simp [h]
  | cons c rest ih =>
    by_cases hc : c = '\n'
    · subst hc
      rw [splitNl_cons_nl] at h
      rcases List.mem_cons.mp h with h1 | h1
      · simp [h1]
      · exact ih h1
    · obtain ⟨m, ms, hrest⟩ := List.exists_cons_of_ne_nil (splitNl_ne_nil rest)
      rw [splitNl_cons_other hc hrest] at h
      rcases List.mem_cons.mp h with h1 | h1
      · subst h1
        intro hmem
        rcases List.mem_cons.mp hmem with h2 | h2
        · exact hc h2.symm
        · exact ih (hrest ▸ List.mem_cons_self m ms) h2
      · exact ih (hrest ▸ List.mem_cons_of_mem m h1)

theorem splitNl_of_noNl {l : Str} (h : '\n' ∉ l) : splitNl l = [l] := by
  induction l with
  | nil => rfl
  | cons c rest ih =>
    have hc : c ≠ '\n' := fun hcc => h (hcc ▸ List.mem_cons_self c rest)
    have hrest : '\n' ∉ rest := fun hm => h (List.mem_cons_of_mem c hm)
    rw [splitNl_cons_other hc (ih hrest)]

theorem splitNl_append_nl {l : Str} (h : '\n' ∉ l) (t : Str) :
    splitNl (l ++ '\n' :: t) = l :: splitNl t := by
  induction l with
  | nil => simpa using splitNl_cons_nl t
  | cons c rest ih =>
    have hc : c ≠ '\n' := fun hcc => h (hcc ▸ List.mem_cons_self c rest)
    have hrest : '\n' ∉ rest := fun hm => h (List.mem_cons_of_mem c hm)
    show splitNl (c :: (rest ++ '\n' :: t)) = (c :: rest) :: splitNl t
    rw [splitNl_cons_other hc (ih hrest)]

theorem splitNl_joinNl {L : List Str} (hnl : ∀ l ∈ L, '\n' ∉ l) (hne : L ≠ []) :
    splitNl (joinNl L) = L := by
  induction L with
  | nil => exact absurd rfl hne
  | cons l L ih =>
    cases L with
    | nil => rw [joinNl_single]; exact splitNl_of_noNl (hnl l (List.mem_cons_self l []))
    | cons m M =>
      rw [joinNl_cons, splitNl_append_nl (hnl l (List.mem_cons_self _ _))]
      rw [ih (fun x hx => hnl x (List.mem_cons_of_mem l hx)) (by simp)]

theorem mem_joinNl_infix {l : Str} {L : List Str} (h : l ∈ L) : l <:+: joinNl L := by
  induction L with
  | nil => simp at h
  | cons m M ih =>
    cases L_eq : M with
    | nil =>
      rw [L_eq] at h
      simp at h
      subst h
      rw [joinNl_single]
    | cons m2 M2 =>
      rw [L_eq] at h ih
      rw [joinNl_cons]
      rcases List.mem_cons.mp h with h1 | h1
      · exact h1 ▸ (List.prefix_append _ _).isInfix
      · have h2 : l <:+: joinNl (m2 :: M2) := ih h1
        have h3 : joinNl (m2 :: M2) <:+ m ++ '\n' :: joinNl (m2 :: M2) :=
          ( List.suffix_append ['\n'] (joinNl (m2 :: M2))).trans
            ( List.suffix_append m ('\n' :: joinNl (m2 :: M2)))
        exact h2.trans h3.isInfix

theorem infix_of_mem_splitNl {s l : Str} (h : l ∈ splitNl s) : l <:+: s := by
  have := mem_joinNl_infix h
  rwa [joinNl_splitNl] at this

theorem splitNl_take_struct (s : Str) (n : Nat) :
    ∃ (pre : List Str) (l p : Str) (suf : List Str),
      splitNl s = pre ++ l :: suf ∧ splitNl (s.take n) = pre ++ [p] ∧ p <+: l := by
  induction s generalizing n with
  | nil =>
    exact ⟨[], [], [], [], by simp [splitNl_nil], by simp [splitNl_nil], List.nil_prefix⟩
  | cons c rest ih =>
    cases n with
    | zero =>
      obtain ⟨l0, ls, h0⟩ := List.exists_cons_of_ne_nil (splitNl_ne_nil (c :: rest))
      exact ⟨[], l0, [], ls, by simp [h0], by simp [splitNl_nil], List.nil_prefix⟩
    | succ n =>
      obtain ⟨pre, l, p, suf, h1, h2, h3⟩ := ih n
      by_cases hc : c = '\n'
      · subst hc
        refine ⟨[] :: pre, l, p, suf, ?_, ?_, h3⟩
        · rw [splitNl_cons_nl, h1]; rfl
        · show splitNl ('\n' :: (rest.take n)) = ([] :: pre) ++ [p]
          rw [splitNl_cons_nl, h2]; rfl
      · cases pre with
        | nil =>
          simp only [List.nil_append] at h1 h2
          refine ⟨[], c :: l, c :: p, suf, ?_, ?_, ?_⟩
          · rw [splitNl_cons_other hc h1]; rfl
          · show splitNl (c :: (rest.take n)) = [] ++ [c :: p]
            rw [splitNl_cons_other hc h2]; rfl
          · exact (List.cons_prefix_cons).mpr ⟨rfl, h3⟩
        | cons q pre2 =>
          refine ⟨(c :: q) :: pre2, l, p, suf, ?_, ?_, h3⟩
          · rw [splitNl_cons_other hc (show splitNl rest = q :: (pre2 ++ l :: suf) by
              rw [h1]; rfl)]
            rfl
          · show splitNl (c :: (rest.take n)) = ((c :: q) :: pre2) ++ [p]
            rw [splitNl_cons_other hc (show splitNl (rest.take n) = q :: (pre2 ++ [p]) by
              rw [h2]; rfl)]
            rfl

theorem splitNl_drop_struct (s : Str) (n : Nat) :
    ∃ (pre : List Str) (l p : Str) (suf : List Str),
      splitNl s = pre ++ l :: suf ∧ splitNl (s.drop n) = p :: suf ∧ p <:+ l := by
  induction s generalizing n with
  | nil =>
    exact ⟨[], [], [], [], by simp [splitNl_nil], by simp [splitNl_nil],
      List.suffix_refl []⟩
  | cons c rest ih =>
    cases n with
    | zero =>
      obtain ⟨l0, ls, h0⟩ := List.exists_cons_of_ne_nil (splitNl_ne_nil (c :: rest))
      exact ⟨[], l0, l0, ls, by simp [h0], by simpa using h0, List.suffix_refl l0⟩
    | succ n =>
      obtain ⟨pre, l, p, suf, h1, h2, h3⟩ := ih n
      by_cases hc : c = '\n'
      · subst hc
        refine ⟨[] :: pre, l, p, suf, ?_, ?_, h3⟩
        · rw [splitNl_cons_nl, h1]; rfl
        · simpa using h2
      · cases pre with
        | nil =>
          simp only [List.nil_append] at h1
          refine ⟨[], c :: l, p, suf, ?_, ?_, ?_⟩
          · rw [splitNl_cons_other hc h1]; rfl
          · simpa using h2
          · exact h3.trans (List.suffix_cons c l)
        | cons q pre2 =>
          refine ⟨(c :: q) :: pre2, l, p, suf, ?_, ?_, h3⟩
          · rw [splitNl_cons_other hc (show splitNl rest = q :: (pre2 ++ l :: suf) by
              rw [h1]; rfl)]
            rfl
          · simpa using h2

theorem mem_splitNl_take {s : Str} {n : Nat} {l' : Str}
    (h : l' ∈ splitNl (s.take n)) : ∃ l ∈ splitNl s, l' <+: l := by
  obtain ⟨pre, l, p, suf, h1, h2, h3⟩ := splitNl_take_struct s n
  rw [h2] at h
  rcases List.mem_append.mp h with hm | hm
  · exact ⟨l', by rw [h1]; exact List.mem_append.mpr (Or.inl hm), List.prefix_refl l'⟩
  · simp at hm
    subst hm
    exact ⟨l, by rw [h1]; exact List.mem_append.mpr (Or.inr (List.mem_cons_self l suf)), h3⟩

theorem mem_splitNl_drop {s : Str} {n : Nat} {l' : Str}
    (h : l' ∈ splitNl (s.drop n)) : ∃ l ∈ splitNl s, l' <:+ l := by
  obtain ⟨pre, l, p, suf, h1, h2, h3⟩ := splitNl_drop_struct s n
  rw [h2] at h
  rcases List.mem_cons.mp h with hm | hm
  · subst hm
    exact ⟨l, by rw [h1]; exact List.mem_append.mpr (Or.inr (List.mem_cons_self l suf)), h3⟩
  · exact ⟨l', by rw [h1]; exact List.mem_append.mpr (Or.inr (List.mem_cons_of_mem l hm)),
      List.suffix_refl l'⟩

-- ==========================================================
-- Lemma layer 4: invariants of the sanitizer stages
-- ==========================================================

/-- No line of `s` starts (after stripping) with ">". -/
def NoGTLines (s : Str) : Prop := ∀ l ∈ splitNl s, startsGT l = false

/-- No match of the "On ... wrote:" regex anywhere in `s`. -/
def NoOnWrote (s : Str) : Prop := ∀ i, onWroteAtB s i = false

/-- No match of the newline-On-word-comma regex anywhere in `s`. -/
def NoNlOn (s : Str) : Prop := ∀ i, matchNlOn (s.drop i) = false

theorem dropWhile_append_of_ne_nil {p : Char → Bool} {xs : Str}
    (h : xs.dropWhile p ≠ []) (ys : Str) :
    (xs ++ ys).dropWhile p = xs.dropWhile p ++ ys := by
  rw [List.dropWhile_append]
  simp [List.isEmpty_iff, h]

theorem startsGT_extend {l' l : Str} (h : l' <+: l)
    (hgt : startsGT l' = true) : startsGT l = true := by
  unfold startsGT at hgt ⊢
  obtain ⟨v, hv⟩ := h
  rcases hd : l'.dropWhile isSpacePy with _ | ⟨c, u⟩
  · rw [hd] at hgt; cases hgt
  · rw [hd] at hgt
    have hc : c = '>' := by
      by_contra hcc
      rw [show (match c :: u with | '>' :: _ => true | _ => false) =
          if c = '>' then true else false by split <;> simp_all] at hgt
      rw [if_neg hcc] at hgt
      cases hgt
    subst hc
    rw [← hv, dropWhile_append_of_ne_nil (by rw [hd]; simp), hd]
    simp

theorem startsGT_false_mono {l' l : Str} (h : l' <+: l)
    (hgt : startsGT l = false) : startsGT l' = false := by
  by_contra hcon
  rw [startsGT_extend h (by simpa using hcon)] at hgt
  cases hgt

theorem noGTLines_take {s : Str} (h : NoGTLines s) (n : Nat) :
    NoGTLines (s.take n) := by
  intro l' hl'
  obtain ⟨l, hl, hpre⟩ := mem_splitNl_take hl'
  exact startsGT_false_mono hpre (h l hl)

theorem noGTLines_lstrip {s : Str} (h : NoGTLines s) : NoGTLines (lstrip s) := by
  induction s with
  | nil => exact h
  | cons c rest ih =>
    by_cases hc : isSpacePy c = true
    · have hrest : NoGTLines rest := by
        intro l hl
        by_cases hnl : c = '\n'
        · exact h l (by rw [hnl, splitNl_cons_nl]; exact List.mem_cons_of_mem _ hl)
        · obtain ⟨l1, ls, h1⟩ := List.exists_cons_of_ne_nil (splitNl_ne_nil rest)
          rw [h1] at hl
          rcases List.mem_cons.mp hl with hm | hm
          · subst hm
            have := h (c :: l) (by
              rw [splitNl_cons_other hnl h1]
              exact List.mem_cons_self _ _)
            unfold startsGT at this ⊢
            rwa [List.dropWhile_cons, if_pos hc] at this
          · exact h l (by
              rw [splitNl_cons_other hnl h1]
              exact List.mem_cons_of_mem _ hm)
      have : lstrip (c :: rest) = lstrip rest := by
        simp [lstrip, List.dropWhile, hc]
      rw [this]
      exact ih hrest
    · have : lstrip (c :: rest) = c :: rest := by
        simp [lstrip, List.dropWhile, hc]
      rw [this]
      exact h

theorem rstrip_as_take (s : Str) : ∃ m, rstrip s = s.take m :=
  ⟨_, rstrip_eq_take s⟩

theorem noGTLines_strip {s : Str} (h : NoGTLines s) : NoGTLines (stripStr s) := by
  obtain ⟨m, hm⟩ := rstrip_as_take (lstrip s)
  unfold stripStr
  rw [hm]
  exact noGTLines_take (noGTLines_lstrip h) m

theorem onWroteAtB_take {s : Str} {n j : Nat}
    (h : onWroteAtB (s.take n) j = true) : onWroteAtB s j = true := by
  unfold onWroteAtB at h ⊢
  rw [Bool.and_eq_true] at h ⊢
  refine ⟨occursAtB_take h.1, ?_⟩
  have h2 := h.2
  rw [List.drop_take] at h2
  exact containsSub_mono ( List.take_prefix _ _).isInfix h2

theorem onWroteAtB_drop {s : Str} {a j : Nat}
    (h : onWroteAtB (s.drop a) j = true) : onWroteAtB s (a + j) = true := by
  unfold onWroteAtB at h ⊢
  rw [Bool.and_eq_true] at h ⊢
  refine ⟨occursAtB_drop h.1, ?_⟩
  have h2 := h.2
  rw [List.drop_drop] at h2
  rw [show a + j + 4 = a + (j + 4) by omega]
  exact h2

theorem noOnWrote_take {s : Str} (h : NoOnWrote s) (n : Nat) :
    NoOnWrote (s.take n) := by
  intro j
  by_contra hcon
  have := onWroteAtB_take (s := s) (n := n) (j := j) (by simpa using hcon)
  rw [h j] at this
  cases this

theorem noOnWrote_drop {s : Str} (h : NoOnWrote s) (a : Nat) :
    NoOnWrote (s.drop a) := by
  intro j
  by_contra hcon
  have := onWroteAtB_drop (s := s) (a := a) (j := j) (by simpa using hcon)
  rw [h (a + j)] at this
  cases this

theorem noOnWrote_strip {s : Str} (h : NoOnWrote s) : NoOnWrote (stripStr s) := by
  obtain ⟨a, m, hs⟩ := stripStr_eq_take_drop s
  rw [hs]
  exact noOnWrote_take (noOnWrote_drop h a) m

theorem matchToks_lit_iff {l : Str} {ts : List Tok} {s : Str} :
    matchToks (Tok.lit l :: ts) s = true ↔
      ∃ r, s = l ++ r ∧ matchToks ts r = true := by
  rw [matchToks]
  constructor
  · intro h
    split at h
    · next hpre =>
      obtain ⟨r, hr⟩ := List.isPrefixOf_iff_prefix.mp hpre
      refine ⟨r, hr.symm, ?_⟩
      rwa [← hr, List.drop_left] at h
    · cases h
  · rintro ⟨r, hs, hm⟩
    subst hs
    rw [if_pos (List.isPrefixOf_iff_prefix.mpr ⟨r, rfl⟩), List.drop_left]
    exact hm

theorem matchToks_star_eq {p : Char → Bool} {ts : List Tok} {s : Str} :
    matchToks (Tok.star p :: ts) s = matchToks ts (s.dropWhile p) := rfl

theorem matchToks_plus_iff {p : Char → Bool} {ts : List Tok} {s : Str} :
    matchToks (Tok.plus p :: ts) s = true ↔
      ∃ c r, s = c :: r ∧ p c = true ∧ matchToks ts (r.dropWhile p) = true := by
  constructor
  · intro h
    rcases s with _ | ⟨c, r⟩
    · rw [show matchToks (Tok.plus p :: ts) [] = false from rfl] at h
      cases h
    · rw [show matchToks (Tok.plus p :: ts) (c :: r) =
          (if p c = true then matchToks ts (r.dropWhile p) else false) from rfl] at h
      split at h
      · exact ⟨c, r, rfl, by assumption, h⟩
      · cases h
  · rintro ⟨c, r, hs, hp, hm⟩
    subst hs
    rw [show matchToks (Tok.plus p :: ts) (c :: r) =
        (if p c = true then matchToks ts (r.dropWhile p) else false) from rfl]
    rw [if_pos hp]
    exact hm

theorem dropWhile_all_append {p : Char → Bool} {xs : Str} {y : Char} {ys : Str}
    (hxs : ∀ c ∈ xs, p c = true) (hy : p y = false) :
    (xs ++ y :: ys).dropWhile p = y :: ys := by
  induction xs with
  | nil => simp [List.dropWhile, hy]
  | cons x xs ih =>
    rw [List.cons_append, List.dropWhile_cons,
      if_pos (hxs x (List.mem_cons_self x xs))]
    exact ih (fun c hc => hxs c (List.mem_cons_of_mem x hc))

theorem word_not_space {c : Char} (h : isWordChar c = true) :
    isSpacePy c = false := by
  by_contra hcon
  have hs : isSpacePy c = true := by simpa using hcon
  unfold isSpacePy at hs
  simp only [Bool.or_eq_true, decide_eq_true_eq] at hs
  rcases hs with ((((h1 | h1) | h1) | h1) | h1) | h1 <;>
    (subst h1; exact absurd h (by decide))

theorem matchNlOn_iff {t : Str} :
    matchNlOn t = true ↔ ∃ (sa sw w rest : Str),
      t = '\n' :: (sa ++ 'O' :: 'n' :: (sw ++ (w ++ ',' :: rest))) ∧
      (∀ c ∈ sa, isSpacePy c = true) ∧ sw ≠ [] ∧
      (∀ c ∈ sw, isSpacePy c = true) ∧ w ≠ [] ∧
      (∀ c ∈ w, isWordChar c = true) := by
  unfold matchNlOn
  constructor
  · intro h
    rw [matchToks_lit_iff] at h
    obtain ⟨r, hr, h⟩ := h
    rw [matchToks_star_eq] at h
    rw [matchToks_lit_iff] at h
    obtain ⟨r2, hr2, h⟩ := h
    rw [show str "On" = ['O', 'n'] from rfl] at hr2
    rw [matchToks_plus_iff] at h
    obtain ⟨c, r3, hr3, hpc, h⟩ := h
    rw [matchToks_plus_iff] at h
    obtain ⟨d, r5, hr5, hpd, h⟩ := h
    rw [matchToks_lit_iff] at h
    obtain ⟨rest, hrest, _⟩ := h
    have eq5 : List.takeWhile isWordChar r5 ++ ',' :: rest = r5 := by
      have h0 := List.takeWhile_append_dropWhile isWordChar r5
      rw [hrest] at h0
      simpa using h0
    have eq3 : List.takeWhile isSpacePy r3 ++ d :: r5 = r3 := by
      have h0 := List.takeWhile_append_dropWhile isSpacePy r3
      rw [hr5] at h0
      exact h0
    have eqr : List.takeWhile isSpacePy r ++ 'O' :: 'n' :: r2 = r := by
      have h0 := List.takeWhile_append_dropWhile isSpacePy r
      rw [hr2] at h0
      simpa using h0
    refine ⟨r.takeWhile isSpacePy, c :: (r3.takeWhile isSpacePy),
      d :: (r5.takeWhile isWordChar), rest, ?_, ?_, by simp, ?_, by simp, ?_⟩
    · rw [hr]
      simp only [List.cons_append, List.append_assoc, List.nil_append]
      rw [eq5, eq3, ← hr3, eqr]
    · exact fun e he => List.mem_takeWhile_imp he
    · intro e he
      rcases List.mem_cons.mp he with h1 | h1
      · subst h1; exact hpc
      · exact List.mem_takeWhile_imp h1
    · intro e he
      rcases List.mem_cons.mp he with h1 | h1
      · subst h1; exact hpd
      · exact List.mem_takeWhile_imp h1
  · rintro ⟨sa, sw, w, rest, ht, hsa, hswne, hsw, hwne, hw⟩
    obtain ⟨c, sw', hswc⟩ := List.exists_cons_of_ne_nil hswne
    obtain ⟨d, w', hwd⟩ := List.exists_cons_of_ne_nil hwne
    rw [matchToks_lit_iff]
    refine ⟨sa ++ 'O' :: 'n' :: (sw ++ (w ++ ',' :: rest)), by simpa using ht, ?_⟩
    rw [matchToks_star_eq, dropWhile_all_append hsa (by decide)]
    rw [matchToks_lit_iff]
    refine ⟨sw ++ (w ++ ',' :: rest), by rw [show str "On" = ['O', 'n'] from rfl]; rfl, ?_⟩
    rw [matchToks_plus_iff]
    refine ⟨c, sw' ++ (w ++ ',' :: rest), by rw [hswc]; simp,
      hsw c (by rw [hswc]; simp), ?_⟩
    rw [hwd, show sw' ++ ((d :: w') ++ ',' :: rest) = sw' ++ d :: (w' ++ ',' :: rest) by simp,
      dropWhile_all_append
        (fun e he => hsw e (by rw [hswc]; exact List.mem_cons_of_mem c he))
        (word_not_space (hw d (by rw [hwd]; simp)))]
    rw [matchToks_plus_iff]
    refine ⟨d, w' ++ ',' :: rest, rfl, hw d (by rw [hwd]; simp), ?_⟩
    rw [dropWhile_all_append
        (fun e he => hw e (by rw [hwd]; exact List.mem_cons_of_mem d he))
        (by decide)]
    rw [matchToks_lit_iff]
    exact ⟨rest, rfl, rfl⟩

theorem occursAtB_le {pat s : Str} {i : Nat} (h : occursAtB pat s i = true) :
    pat.length ≤ s.length - i := by
  rw [occursAtB_iff] at h
  have := h.length_le
  simpa using this

theorem matchNlOn_of_take {t : Str} {m : Nat} (h : matchNlOn (t.take m) = true) :
    matchNlOn t = true := by
  rw [matchNlOn_iff] at h ⊢
  obtain ⟨sa, sw, w, rest, ht, hsa, hswne, hsw, hwne, hw⟩ := h
  refine ⟨sa, sw, w, rest ++ t.drop m, ?_, hsa, hswne, hsw, hwne, hw⟩
  conv_lhs => rw [← List.take_append_drop m t]
  rw [ht]
  simp [List.append_assoc]

theorem noNlOn_take {s : Str} (h : NoNlOn s) (n : Nat) : NoNlOn (s.take n) := by
  intro j
  by_contra hcon
  have h1 : matchNlOn ((s.take n).drop j) = true := by simpa using hcon
  rw [List.drop_take] at h1
  have h2 := matchNlOn_of_take h1
  rw [h j] at h2
  cases h2

theorem noNlOn_drop {s : Str} (h : NoNlOn s) (a : Nat) : NoNlOn (s.drop a) := by
  intro j
  rw [List.drop_drop]
  exact h (a + j)

theorem noNlOn_strip {s : Str} (h : NoNlOn s) : NoNlOn (stripStr s) := by
  obtain ⟨a, m, hs⟩ := stripStr_eq_take_drop s
  rw [hs]
  exact noNlOn_take (noNlOn_drop h a) m

theorem truncOnWrote_as_take (s : Str) : ∃ n, truncOnWrote s = s.take n := by
  unfold truncOnWrote
  rcases h : firstIdx (onWroteAtB s) (s.length + 1) with _ | i
  · exact ⟨s.length, (List.take_length s).symm⟩
  · exact ⟨i, rfl⟩

theorem noOnWrote_truncOnWrote (s : Str) : NoOnWrote (truncOnWrote s) := by
  unfold truncOnWrote
  rcases h : firstIdx (onWroteAtB s) (s.length + 1) with _ | i
  · show NoOnWrote s
    intro j
    by_cases hj : j < s.length + 1
    · exact firstIdx_none h j hj
    · by_contra hcon
      have hc : onWroteAtB s j = true := by simpa using hcon
      unfold onWroteAtB at hc
      rw [Bool.and_eq_true] at hc
      have := occursAtB_le hc.1
      rw [show (str "On ").length = 3 from rfl] at this
      omega
  · show NoOnWrote (s.take i)
    intro j
    by_contra hcon
    have hc : onWroteAtB (s.take i) j = true := by simpa using hcon
    have hlen : 3 ≤ (s.take i).length - j := by
      unfold onWroteAtB at hc
      rw [Bool.and_eq_true] at hc
      have := occursAtB_le hc.1
      rwa [show (str "On ").length = 3 from rfl] at this
    have hji : j < i := by
      have := List.length_take i s
      omega
    have := (firstIdx_some h).2 j hji
    rw [onWroteAtB_take hc] at this
    cases this

theorem truncOnWrote_eq_self {s : Str} (h : NoOnWrote s) : truncOnWrote s = s := by
  unfold truncOnWrote
  rw [firstIdx_of_false (fun k => h k)]

theorem truncNlOn_as_take (s : Str) : ∃ n, truncNlOn s = s.take n := by
  unfold truncNlOn
  rcases h : firstIdx (fun i => matchNlOn (s.drop i)) (s.length + 1) with _ | i
  · exact ⟨s.length, (List.take_length s).symm⟩
  · exact ⟨i, rfl⟩

theorem noNlOn_truncNlOn (s : Str) : NoNlOn (truncNlOn s) := by
  unfold truncNlOn
  rcases h : firstIdx (fun i => matchNlOn (s.drop i)) (s.length + 1) with _ | i
  · show NoNlOn s
    intro j
    by_cases hj : j < s.length + 1
    · exact firstIdx_none h j hj
    · rw [List.drop_eq_nil_of_le (by omega)]
      rfl
  · show NoNlOn (s.take i)
    intro j
    by_contra hcon
    have hc : matchNlOn ((s.take i).drop j) = true := by simpa using hcon
    have hne : (s.take i).drop j ≠ [] := by
      intro hnil
      rw [hnil] at hc
      cases hc
    have hji : j < i := by
      have h1 : j < (s.take i).length := by
        by_contra hge
        exact hne (List.drop_eq_nil_of_le (by omega))
      have := List.length_take i s
      omega
    rw [List.drop_take] at hc
    have h2 := matchNlOn_of_take hc
    have := (firstIdx_some h).2 j hji
    simp only [h2] at this
    cases this

theorem truncNlOn_eq_self {s : Str} (h : NoNlOn s) : truncNlOn s = s := by
  unfold truncNlOn
  rw [firstIdx_of_false (fun k => h k)]

theorem noGTLines_dropQuotedLines (s : Str) : NoGTLines (dropQuotedLines s) := by
  unfold dropQuotedLines
  rcases hL : (splitNl s).filter (fun l => !startsGT l) with _ | ⟨l0, L0⟩
  · rw [joinNl_nil]
    intro l hl
    rw [splitNl_nil] at hl
    simp at hl
    subst hl
    rfl
  · rw [← hL]
    have hnl : ∀ l ∈ (splitNl s).filter (fun l => !startsGT l), '\n' ∉ l :=
      fun l hl => noNl_of_mem_splitNl (List.mem_of_mem_filter hl)
    intro l hl
    rw [splitNl_joinNl hnl (by rw [hL]; simp)] at hl
    have := List.of_mem_filter hl
    simpa using this

theorem dropQuotedLines_eq_self {s : Str} (h : NoGTLines s) :
    dropQuotedLines s = s := by
  unfold dropQuotedLines
  rw [List.filter_eq_self.mpr (fun l hl => by rw [h l hl]; rfl)]
  exact joinNl_splitNl s

theorem strip_quoted_invariants (b : Str) :
    NoGTLines (strip_quoted b) ∧ NoOnWrote (strip_quoted b) ∧
    NoNlOn (strip_quoted b) ∧ stripStr (strip_quoted b) = strip_quoted b := by
  unfold strip_quoted
  have hGT1 := noGTLines_dropQuotedLines b
  obtain ⟨n2, h2⟩ := truncOnWrote_as_take (dropQuotedLines b)
  have hOW2 := noOnWrote_truncOnWrote (dropQuotedLines b)
  have hGT2 : NoGTLines (truncOnWrote (dropQuotedLines b)) := by
    rw [h2]; exact noGTLines_take hGT1 n2
  obtain ⟨n3, h3⟩ := truncNlOn_as_take (truncOnWrote (dropQuotedLines b))
  have hNL3 := noNlOn_truncNlOn (truncOnWrote (dropQuotedLines b))
  have hGT3 : NoGTLines (truncNlOn (truncOnWrote (dropQuotedLines b))) := by
    rw [h3]; exact noGTLines_take hGT2 n3
  have hOW3 : NoOnWrote (truncNlOn (truncOnWrote (dropQuotedLines b))) := by
    rw [h3]; exact noOnWrote_take hOW2 n3
  exact ⟨noGTLines_strip hGT3, noOnWrote_strip hOW3, noNlOn_strip hNL3,
    stripStr_idem _⟩

theorem strip_quoted_eq_self {r : Str} (hGT : NoGTLines r) (hOW : NoOnWrote r)
    (hNL : NoNlOn r) (hS : stripStr r = r) : strip_quoted r = r := by
  unfold strip_quoted
  rw [dropQuotedLines_eq_self hGT, truncOnWrote_eq_self hOW,
    truncNlOn_eq_self hNL, hS]

theorem strip_quoted_idem (b : Str) :
    strip_quoted (strip_quoted b) = strip_quoted b := by
  obtain ⟨hGT, hOW, hNL, hS⟩ := strip_quoted_invariants b
  exact strip_quoted_eq_self hGT hOW hNL hS

-- ==========================================================
-- Lemma layer 5: strip_signature idempotence
-- ==========================================================

/-- No occurrence of the signature delimiter "--". -/
def NoDD (s : Str) : Prop := containsSub (str "--") s = false

/-- No match of the device-trailer pattern inside the (newline-free)
line `l`: no occurrence of the literal with at least one character
after it. -/
def SentFreeLine (l : Str) : Prop :=
  ∀ i, ¬(occursAtB (str "Sent from my ") l i = true ∧ i + 13 < l.length)

/-- Every line of `s` is trailer-free. -/
def SentFreeLines (s : Str) : Prop := ∀ l ∈ splitNl s, SentFreeLine l

theorem infix_split_at_nl {pat x y : Str} (hne : pat ≠ []) (hnl : '\n' ∉ pat)
    (h : pat <:+: x ++ '\n' :: y) : pat <:+: x ∨ pat <:+: y := by
  induction x with
  | nil =>
    rw [List.nil_append] at h
    rcases List.infix_cons_iff.mp h with hp | hi
    · obtain ⟨c, pat', hc⟩ := List.exists_cons_of_ne_nil hne
      subst hc
      obtain ⟨v, hv⟩ := hp
      rw [List.cons_append] at hv
      have hcnl : c = '\n' := (List.cons.injEq .. ▸ hv).1
      exact absurd (hcnl ▸ List.mem_cons_self c pat') hnl
    · exact Or.inr hi
  | cons d x' ih =>
    rw [List.cons_append] at h
    rcases List.infix_cons_iff.mp h with hp | hi
    · left
      by_cases hlen : pat.length ≤ (d :: x').length
      · refine List.IsPrefix.isInfix ?_
        rw [List.prefix_iff_eq_take] at hp ⊢
        rw [hp]
        rw [show d :: (x' ++ '\n' :: y) = (d :: x') ++ '\n' :: y from rfl]
        rw [List.take_append_of_le_length hlen]
        rw [List.length_take]
        congr 1
        omega
      · exfalso
        apply hnl
        rw [List.prefix_iff_eq_take] at hp
        rw [hp]
        rw [show d :: (x' ++ '\n' :: y) = (d :: x') ++ '\n' :: y from rfl]
        rw [List.take_append_eq_append_take,
          List.take_of_length_le (by omega)]
        refine List.mem_append.mpr (Or.inr ?_)
        rcases hm : pat.length - (d :: x').length with _ | m
        · omega
        · simp
    · rcases ih hi with h1 | h1
      · exact Or.inl (List.infix_cons h1)
      · exact Or.inr h1

theorem containsSub_joinNl {pat : Str} (hne : pat ≠ []) (hnl : '\n' ∉ pat) :
    ∀ {L : List Str}, containsSub pat (joinNl L) = true →
      ∃ l ∈ L, containsSub pat l = true := by
  intro L
  induction L with
  | nil =>
    intro h
    rw [joinNl_nil, containsSub_infix_iff, List.infix_nil] at h
    exact absurd h hne
  | cons l L ih =>
    intro h
    cases L with
    | nil =>
      rw [joinNl_single] at h
      exact ⟨l, List.mem_cons_self l [], h⟩
    | cons m M =>
      rw [joinNl_cons, containsSub_infix_iff] at h
      rcases infix_split_at_nl hne hnl h with h1 | h1
      · exact ⟨l, List.mem_cons_self _ _, containsSub_infix_iff.mpr h1⟩
      · obtain ⟨x, hx, hcx⟩ := ih (containsSub_infix_iff.mpr h1)
        exact ⟨x, List.mem_cons_of_mem l hx, hcx⟩

theorem noDD_of_not_exists {s : Str}
    (h : ∀ i, occursAtB (str "--") s i = false) : NoDD s := by
  unfold NoDD
  by_contra hcon
  obtain ⟨i, hi⟩ := containsSub_iff.mp (by simpa using hcon)
  rw [h i] at hi
  cases hi

theorem noDD_ddTrunc (s : Str) : NoDD (ddTrunc s) := by
  unfold ddTrunc findSub
  rcases h : firstIdx (occursAtB (str "--") s) (s.length + 1) with _ | i
  · show NoDD s
    apply noDD_of_not_exists
    intro j
    by_cases hj : j < s.length + 1
    · exact firstIdx_none h j hj
    · by_contra hcon
      have := occursAtB_le (show occursAtB (str "--") s j = true by simpa using hcon)
      rw [show (str "--").length = 2 from rfl] at this
      omega
  · show NoDD (s.take i)
    apply noDD_of_not_exists
    intro j
    by_contra hcon
    have hc : occursAtB (str "--") (s.take i) j = true := by simpa using hcon
    have hlen := occursAtB_le hc
    rw [show (str "--").length = 2 from rfl] at hlen
    have hji : j < i := by
      have := List.length_take i s
      omega
    have := (firstIdx_some h).2 j hji
    rw [occursAtB_take hc] at this
    cases this

theorem ddTrunc_eq_self {s : Str} (h : NoDD s) : ddTrunc s = s := by
  unfold ddTrunc findSub
  rw [firstIdx_of_false (fun k => by
    by_contra hcon
    have hk : occursAtB (str "--") s k = true := by simpa using hcon
    have hc := containsSub_iff.mpr ⟨k, hk⟩
    unfold NoDD at h
    rw [hc] at h
    cases h)]

theorem noDD_mono {s t : Str} (hst : s <:+: t) (h : NoDD t) : NoDD s := by
  unfold NoDD at h ⊢
  by_contra hcon
  rw [containsSub_mono hst (by simpa using hcon)] at h
  cases h

theorem sentFreeLine_mono {l' l : Str} (hinf : l' <:+: l)
    (hl : SentFreeLine l) : SentFreeLine l' := by
  rintro i ⟨hocc, hlen⟩
  obtain ⟨u, v, huv⟩ := hinf
  apply hl (u.length + i)
  constructor
  · rw [occursAtB_iff] at hocc ⊢
    rw [← huv, List.append_assoc, List.drop_append,
      List.drop_append_of_le_length (by omega)]
    exact hocc.trans (List.prefix_append _ v)
  · rw [← huv]
    simp only [List.length_append]
    omega

theorem truncSentFromMyLine_as_take (l : Str) :
    ∃ n, truncSentFromMyLine l = l.take n := by
  unfold truncSentFromMyLine
  rcases h : firstIdx
      (fun i => occursAtB (str "Sent from my ") l i && decide (i + 13 < l.length))
      (l.length + 1) with _ | i
  · exact ⟨l.length, (List.take_length l).symm⟩
  · exact ⟨i, rfl⟩

theorem sentFree_truncSentFromMyLine (l : Str) :
    SentFreeLine (truncSentFromMyLine l) := by
  unfold truncSentFromMyLine
  rcases h : firstIdx
      (fun i => occursAtB (str "Sent from my ") l i && decide (i + 13 < l.length))
      (l.length + 1) with _ | i
  · show SentFreeLine l
    rintro j ⟨hocc, hlen⟩
    have hj : j < l.length + 1 := by omega
    have := firstIdx_none h j hj
    rw [hocc] at this
    simp at this
    omega
  · show SentFreeLine (l.take i)
    rintro j ⟨hocc, hlen⟩
    have hji : j < i := by
      have := List.length_take i l
      omega
    have hmin := (firstIdx_some h).2 j hji
    rw [occursAtB_take hocc] at hmin
    have hjl : j + 13 < l.length := by
      have := List.length_take i l
      omega
    simp [hjl] at hmin

theorem truncSentFromMyLine_eq_self {l : Str} (h : SentFreeLine l) :
    truncSentFromMyLine l = l := by
  unfold truncSentFromMyLine
  rw [firstIdx_of_false (fun k => by
    rcases hocc : occursAtB (str "Sent from my ") l k with _ | _
    · simp
    · have hnl : ¬ (k + 13 < l.length) := fun hl => (h k) ⟨hocc, hl⟩
      simp [hnl])]

theorem splitNl_removeSentFromMy (s : Str) :
    splitNl (removeSentFromMy s) = (splitNl s).map truncSentFromMyLine := by
  unfold removeSentFromMy
  apply splitNl_joinNl
  · intro l hl
    obtain ⟨l0, hl0, hmap⟩ := List.mem_map.mp hl
    obtain ⟨n, hn⟩ := truncSentFromMyLine_as_take l0
    intro hmem
    rw [← hmap] at hmem
    rw [hn] at hmem
    exact noNl_of_mem_splitNl hl0 (( List.take_prefix n l0).sublist.subset hmem)
  · intro hnil
    exact splitNl_ne_nil s (List.map_eq_nil.mp hnil)

theorem sentFreeLines_removeSentFromMy (s : Str) :
    SentFreeLines (removeSentFromMy s) := by
  intro l hl
  rw [splitNl_removeSentFromMy] at hl
  obtain ⟨l0, _, hmap⟩ := List.mem_map.mp hl
  rw [← hmap]
  exact sentFree_truncSentFromMyLine l0

theorem noDD_removeSentFromMy {s : Str} (h : NoDD s) :
    NoDD (removeSentFromMy s) := by
  unfold NoDD
  by_contra hcon
  have hsplit : ∃ l ∈ (splitNl s).map truncSentFromMyLine,
      containsSub (str "--") l = true := by
    apply containsSub_joinNl (show (str "--") ≠ [] by decide)
      (show '\n' ∉ str "--" by decide)
    have : removeSentFromMy s = joinNl ((splitNl s).map truncSentFromMyLine) := rfl
    rw [← this]
    simpa using hcon
  obtain ⟨x, hx, hcx⟩ := hsplit
  obtain ⟨l0, hl0, hmap⟩ := List.mem_map.mp hx
  obtain ⟨n, hn⟩ := truncSentFromMyLine_as_take l0
  have hinf : x <:+: s := by
    rw [← hmap, hn]
    exact (( List.take_prefix n l0).isInfix).trans (infix_of_mem_splitNl hl0)
  unfold NoDD at h
  rw [containsSub_mono hinf hcx] at h
  cases h

theorem removeSentFromMy_eq_self {s : Str} (h : SentFreeLines s) :
    removeSentFromMy s = s := by
  unfold removeSentFromMy
  rw [List.map_congr_left (fun l hl => by
    rw [show (truncSentFromMyLine l : Str) = id l from
      by simp [truncSentFromMyLine_eq_self (h l hl)]])]
  rw [List.map_id]
  exact joinNl_splitNl s

theorem sentFreeLines_take {s : Str} (h : SentFreeLines s) (n : Nat) :
    SentFreeLines (s.take n) := by
  intro l' hl'
  obtain ⟨l, hl, hpre⟩ := mem_splitNl_take hl'
  exact sentFreeLine_mono hpre.isInfix (h l hl)

theorem sentFreeLines_drop {s : Str} (h : SentFreeLines s) (n : Nat) :
    SentFreeLines (s.drop n) := by
  intro l' hl'
  obtain ⟨l, hl, hsuf⟩ := mem_splitNl_drop hl'
  exact sentFreeLine_mono hsuf.isInfix (h l hl)

theorem sentFreeLines_strip {s : Str} (h : SentFreeLines s) :
    SentFreeLines (stripStr s) := by
  obtain ⟨a, m, hs⟩ := stripStr_eq_take_drop s
  rw [hs]
  exact sentFreeLines_take (sentFreeLines_drop h a) m

theorem noDD_strip {s : Str} (h : NoDD s) : NoDD (stripStr s) :=
  noDD_mono (stripStr_infix_self s) h

theorem strip_signature_invariants (b : Str) :
    NoDD (strip_signature b) ∧ SentFreeLines (strip_signature b) ∧
    stripStr (strip_signature b) = strip_signature b := by
  unfold strip_signature
  exact ⟨noDD_strip (noDD_removeSentFromMy (noDD_ddTrunc b)),
    sentFreeLines_strip (sentFreeLines_removeSentFromMy (ddTrunc b)),
    stripStr_idem _⟩

theorem strip_signature_eq_self {r : Str} (h1 : NoDD r) (h2 : SentFreeLines r)
    (h3 : stripStr r = r) : strip_signature r = r := by
  unfold strip_signature
  rw [ddTrunc_eq_self h1, removeSentFromMy_eq_self h2, h3]

theorem strip_signature_idem (b : Str) :
    strip_signature (strip_signature b) = strip_signature b := by
  obtain ⟨h1, h2, h3⟩ := strip_signature_invariants b
  exact strip_signature_eq_self h1 h2 h3

-- ==========================================================
-- Lemma layer 6: the Python-dict model (deduplication)
-- ==========================================================

theorem firstOccur_cons (k : Str) (ks : List Str) :
    firstOccur (k :: ks) = k :: firstOccur (ks.filter (fun x => !(x == k))) := by
  rw [firstOccur]

theorem firstOccur_nil : firstOccur [] = [] := by rw [firstOccur]

theorem firstOccur_bounded :
    ∀ (n : Nat) (l : List Str), l.length ≤ n →
      ((∀ x, x ∈ firstOccur l ↔ x ∈ l) ∧ (firstOccur l).Nodup) := by
  intro n
  induction n with
  | zero =>
    intro l hl
    cases l with
    | nil => rw [firstOccur_nil]; exact ⟨fun x => Iff.rfl, List.nodup_nil⟩
    | cons a as => simp at hl
  | succ n ih =>
    intro l hl
    cases l with
    | nil => rw [firstOccur_nil]; exact ⟨fun x => Iff.rfl, List.nodup_nil⟩
    | cons k ks =>
      rw [firstOccur_cons]
      have hlen : (ks.filter (fun x => !(x == k))).length ≤ n := by
        have := List.length_filter_le (fun x => !(x == k)) ks
        simp at hl
        omega
      obtain ⟨hmem, hnd⟩ := ih _ hlen
      constructor
      · intro x
        rw [List.mem_cons, hmem x, List.mem_filter, List.mem_cons]
        constructor
        · rintro (h | ⟨h, _⟩)
          · exact Or.inl h
          · exact Or.inr h
        · rintro (h | h)
          · exact Or.inl h
          · by_cases hxk : x = k
            · exact Or.inl hxk
            · exact Or.inr ⟨h, by simp [hxk]⟩
      · refine List.nodup_cons.mpr ⟨?_, hnd⟩
        intro hk
        have := (hmem k).mp hk
        rw [List.mem_filter] at this
        simp at this

theorem mem_firstOccur {x : Str} {l : List Str} :
    x ∈ firstOccur l ↔ x ∈ l :=
  (firstOccur_bounded l.length l (le_refl _)).1 x

theorem firstOccur_nodup (l : List Str) : (firstOccur l).Nodup :=
  (firstOccur_bounded l.length l (le_refl _)).2

theorem firstOccur_concat :
    ∀ (n : Nat) (l : List Str), l.length ≤ n → ∀ k,
      firstOccur (l ++ [k]) =
        if k ∈ l then firstOccur l else firstOccur l ++ [k] := by
  intro n
  induction n with
  | zero =>
    intro l hl k
    cases l with
    | nil =>
      rw [List.nil_append, firstOccur_cons, firstOccur_nil]
      simp [firstOccur_nil]
    | cons a as => simp at hl
  | succ n ih =>
    intro l hl k
    cases l with
    | nil =>
      rw [List.nil_append, firstOccur_cons, firstOccur_nil]
      simp [firstOccur_nil]
    | cons m ms =>
      rw [List.cons_append, firstOccur_cons, firstOccur_cons]
      have hlen : (ms.filter (fun x => !(x == m))).length ≤ n := by
        have := List.length_filter_le (fun x => !(x == m)) ms
        simp at hl
        omega
      by_cases hkm : k = m
      · subst hkm
        have hfil : (ms ++ [k]).filter (fun x => !(x == k)) =
            ms.filter (fun x => !(x == k)) := by
          rw [List.filter_append]
          simp
        rw [hfil, if_pos (List.mem_cons_self k ms)]
      · have hfil : (ms ++ [k]).filter (fun x => !(x == m)) =
            ms.filter (fun x => !(x == m)) ++ [k] := by
          rw [List.filter_append]
          simp [hkm]
        rw [hfil, ih _ hlen k]
        have hmem : k ∈ ms.filter (fun x => !(x == m)) ↔ k ∈ ms := by
          rw [List.mem_filter]
          simp [hkm]
        by_cases hms : k ∈ ms
        · rw [if_pos (hmem.mpr hms), if_pos (List.mem_cons_of_mem m hms)]
        · rw [if_neg (fun hc => hms (hmem.mp hc)),
            if_neg (fun hc => by
              rcases List.mem_cons.mp hc with h1 | h1
              · exact hkm h1
              · exact hms h1)]
          rfl

theorem dictOfList_concat {V : Type} (L : List (Str × V)) (kv : Str × V) :
    dictOfList (L ++ [kv]) = dictInsert (dictOfList L) kv.1 kv.2 := by
  unfold dictOfList
  rw [List.foldl_concat]

theorem dictAny_iff {V : Type} (d : List (Str × V)) (k : Str) :
    d.any (fun p => p.1 == k) = true ↔ k ∈ d.map Prod.fst := by
  rw [List.any_eq_true]
  constructor
  · rintro ⟨p, hp, hbeq⟩
    exact List.mem_map.mpr ⟨p, hp, eq_of_beq hbeq⟩
  · rintro hm
    obtain ⟨p, hp, hfst⟩ := List.mem_map.mp hm
    exact ⟨p, hp, by rw [hfst]; simp⟩

theorem dictInsert_keys {V : Type} (d : List (Str × V)) (k : Str) (v : V) :
    (dictInsert d k v).map Prod.fst =
      if k ∈ d.map Prod.fst then d.map Prod.fst else d.map Prod.fst ++ [k] := by
  unfold dictInsert
  by_cases h : d.any (fun p => p.1 == k) = true
  · rw [if_pos h, if_pos ((dictAny_iff d k).mp h), List.map_map]
    exact List.map_congr_left (fun p _ => by
      show (if p.1 == k then (p.1, v) else p).1 = p.1
      split <;> rfl)
  · rw [if_neg h, if_neg (fun hc => h ((dictAny_iff d k).mpr hc)), List.map_append]
    rfl

theorem dictOfList_keys {V : Type} (L : List (Str × V)) :
    (dictOfList L).map Prod.fst = firstOccur (L.map Prod.fst) := by
  induction L using List.reverseRecOn with
  | nil => rw [show dictOfList ([] : List (Str × V)) = [] from rfl]; simp [firstOccur_nil]
  | append_singleton L kv ih =>
    rw [dictOfList_concat, dictInsert_keys, List.map_append]
    simp only [List.map_cons, List.map_nil]
    rw [firstOccur_concat (L.map Prod.fst).length _ (le_refl _) kv.1, ih]
    by_cases h : kv.1 ∈ L.map Prod.fst
    · rw [if_pos (mem_firstOccur.mpr h), if_pos h]
    · rw [if_neg (fun hc => h (mem_firstOccur.mp hc)), if_neg h]

theorem dictOfList_keys_nodup {V : Type} (L : List (Str × V)) :
    ((dictOfList L).map Prod.fst).Nodup := by
  rw [dictOfList_keys]
  exact firstOccur_nodup _

theorem find?_congr_mem {α : Type} {p q : α → Bool} :
    ∀ {l : List α}, (∀ x ∈ l, p x = q x) → l.find? p = l.find? q := by
  intro l
  induction l with
  | nil => intro _; rfl
  | cons a l ih =>
    intro h
    rcases hq : q a with _ | _
    · rw [List.find?_cons_of_neg _ (by rw [h a (List.mem_cons_self a l), hq]; simp),
        List.find?_cons_of_neg _ (by rw [hq]; simp)]
      exact ih (fun x hx => h x (List.mem_cons_of_mem a hx))
    · rw [List.find?_cons_of_pos _ (by rw [h a (List.mem_cons_self a l), hq]),
        List.find?_cons_of_pos _ hq]

theorem dictOfList_find? {V : Type} (L : List (Str × V)) (k : Str) :
    (dictOfList L).find? (fun p => p.1 == k) =
      (L.reverse).find? (fun p => p.1 == k) := by
  induction L using List.reverseRecOn with
  | nil => rfl
  | append_singleton L kv ih =>
    rw [dictOfList_concat, List.reverse_append, List.reverse_singleton,
      List.singleton_append]
    unfold dictInsert
    by_cases hany : (dictOfList L).any (fun p => p.1 == kv.1) = true
    · rw [if_pos hany, List.find?_map]
      have hfg : ((fun p : Str × V => p.1 == k) ∘
            (fun p => if p.1 == kv.1 then (p.1, kv.2) else p)) =
          (fun p : Str × V => p.1 == k) := by
        funext p
        show ((if (p.1 == kv.1) = true then (p.1, kv.2) else p).1 == k) =
          (p.1 == k)
        split <;> rfl
      rw [hfg, ih]
      by_cases hk : (kv.1 == k) = true
      · have hkk : kv.1 = k := eq_of_beq hk
        subst hkk
        rw [List.find?_cons_of_pos _ (by simp)]
        obtain ⟨p0, hp0, hbeq⟩ := List.any_eq_true.mp hany
        rcases hf : (L.reverse).find? (fun p => p.1 == kv.1) with _ | p1
        · exfalso
          have hdict := ih.trans hf
          rw [List.find?_eq_none] at hdict
          exact hdict p0 hp0 hbeq
        · rw [hf]
          have hp1 := List.find?_some hf
          have hp11 : p1.1 = kv.1 := eq_of_beq hp1
          show some (if (p1.1 == kv.1) = true then (p1.1, kv.2) else p1) = some kv
          rw [if_pos hp1, hp11]
      · rw [List.find?_cons_of_neg _ (by simpa using hk)]
        rcases hf : (L.reverse).find? (fun p => p.1 == k) with _ | p1
        · rw [hf]
          rfl
        · rw [hf]
          have hp1 := List.find?_some hf
          show some (if (p1.1 == kv.1) = true then (p1.1, kv.2) else p1) = some p1
          rw [if_neg (fun hc => hk (by
            have h1 : p1.1 = kv.1 := eq_of_beq hc
            have h2 : p1.1 = k := eq_of_beq hp1
            rw [← h1, h2]
            simp))]
    · rw [if_neg hany, List.find?_append, ih]
      by_cases hk : (kv.1 == k) = true
      · have hkk : kv.1 = k := eq_of_beq hk
        subst hkk
        have hnone : (L.reverse).find? (fun p => p.1 == kv.1) = none := by
          rw [← ih, List.find?_eq_none]
          intro p hp hbeq
          exact hany (List.any_eq_true.mpr ⟨p, hp, hbeq⟩)
        have hsing : ([(kv.1, kv.2)] : List (Str × V)).find?
            (fun p => p.1 == kv.1) = some (kv.1, kv.2) :=
          List.find?_cons_of_pos _ (by simp)
        have hr : (kv :: L.reverse).find? (fun p => p.1 == kv.1) = some kv :=
          List.find?_cons_of_pos _ (by simp)
        rw [hnone, hsing, hr]
        rfl
      · have hsing : ([(kv.1, kv.2)] : List (Str × V)).find?
            (fun p => p.1 == k) = none :=
          List.find?_cons_of_neg _ (by simpa using hk)
        have hr : (kv :: L.reverse).find? (fun p => p.1 == k) =
            (L.reverse).find? (fun p => p.1 == k) :=
          List.find?_cons_of_neg _ (by simpa using hk)
        rw [hsing, hr, Option.or_none]

theorem dictOfList_entries {V : Type} (f : V → Str) (L : List (Str × V))
    (hL : ∀ kv ∈ L, kv.1 = f kv.2) : ∀ p ∈ dictOfList L, p.1 = f p.2 := by
  induction L using List.reverseRecOn with
  | nil => intro p hp; exact absurd hp (by simp [show dictOfList ([] : List (Str × V)) = [] from rfl])
  | append_singleton L kv ih =>
    intro p hp
    rw [dictOfList_concat] at hp
    unfold dictInsert at hp
    have hkv : kv.1 = f kv.2 := hL kv (by simp)
    have hL' : ∀ x ∈ L, x.1 = f x.2 := fun x hx => hL x (by simp [hx])
    split at hp
    · obtain ⟨p0, hp0, hg⟩ := List.mem_map.mp hp
      by_cases hb : (p0.1 == kv.1) = true
      · rw [if_pos hb] at hg
        rw [← hg]
        show p0.1 = f kv.2
        rw [eq_of_beq hb, hkv]
      · rw [if_neg hb] at hg
        rw [← hg]
        exact ih hL' p0 hp0
    · rcases List.mem_append.mp hp with h1 | h1
      · exact ih hL' p h1
      · rw [List.mem_singleton.mp h1]
        exact hkv

theorem uniqueOutbound_entries (outs : List OutMsg) :
    ∀ p ∈ dictOfList (outs.map (fun o => (o.msgid, o))), p.1 = p.2.msgid :=
  dictOfList_entries OutMsg.msgid _ (by
    intro kv hkv
    obtain ⟨o, _, ho⟩ := List.mem_map.mp hkv
    rw [← ho])

theorem uniqueOutbound_keys (outs : List OutMsg) :
    (uniqueOutbound outs).map OutMsg.msgid = firstOccur (outs.map OutMsg.msgid) := by
  unfold uniqueOutbound dictValues
  rw [List.map_map,
    List.map_congr_left (fun p hp =>
      show (OutMsg.msgid ∘ Prod.snd) p = Prod.fst p from
        (uniqueOutbound_entries outs p hp).symm),
    dictOfList_keys, List.map_map]
  rfl

theorem uniqueOutbound_find? (outs : List OutMsg) (k : Str) :
    (uniqueOutbound outs).find? (fun o => o.msgid == k) =
      (outs.reverse).find? (fun o => o.msgid == k) := by
  unfold uniqueOutbound dictValues
  rw [List.find?_map]
  rw [find?_congr_mem (fun p hp => by
    show (p.2.msgid == k) = (p.1 == k)
    rw [uniqueOutbound_entries outs p hp])]
  rw [dictOfList_find?, ← List.map_reverse, List.find?_map]
  rw [show ((fun p : Str × OutMsg => p.1 == k) ∘ (fun o => (o.msgid, o))) =
    (fun o : OutMsg => o.msgid == k) from rfl]
  rcases hf : (outs.reverse).find? (fun o => o.msgid == k) with _ | o
  · rw [hf]
    rfl
  · rw [hf]
    rfl

-- ==========================================================
-- Lemma layer 7: walk loop and enhancer replacement loop
-- ==========================================================

theorem walkAux_all_attachment (soup : Str → Str) (tp hp : Option Str) :
    ∀ parts : List MsgPart,
      parts.all (fun p => containsSub (str "attachment") p.disp) = true →
      walkAux soup tp hp parts = (tp, hp) := by
  intro parts
  induction parts generalizing tp hp with
  | nil => intro _; rfl
  | cons p rest ih =>
    intro h
    rw [List.all_cons, Bool.and_eq_true] at h
    unfold walkAux
    rw [if_pos h.1]
    exact ih tp hp h.2

theorem enhanceStep_foldl_length :
    ∀ (pairs : List (Nat × Str)) (exs : List PyExample),
      (pairs.foldl enhanceStep exs).length = exs.length := by
  intro pairs
  induction pairs with
  | nil => intro exs; rfl
  | cons ip rest ih =>
    intro exs
    rw [List.foldl_cons, ih]
    unfold enhanceStep
    rcases exs.get? ip.1 with _ | ex
    · rfl
    · exact List.length_set exs ip.1 _

theorem enhanceStep_foldl_untouched :
    ∀ (pairs : List (Nat × Str)) (exs : List PyExample) (j : Nat),
      (∀ ip ∈ pairs, ip.1 ≠ j) →
      (pairs.foldl enhanceStep exs).get? j = exs.get? j := by
  intro pairs
  induction pairs with
  | nil => intro exs j _; rfl
  | cons ip rest ih =>
    intro exs j h
    rw [List.foldl_cons, ih _ _ (fun q hq => h q (List.mem_cons_of_mem ip hq))]
    unfold enhanceStep
    rcases exs.get? ip.1 with _ | ex
    · rfl
    · exact List.get?_set_ne _ exs (h ip (List.mem_cons_self ip rest) : ip.1 ≠ j)

-- ==========================================================
-- Claim theorems
-- ==========================================================

/-- Claim C1: `split_dataset` seeds the generator with the given seed and
shuffles with it alone (modelled: the shuffle is a deterministic function
of the seed), returns the first floor(len * ratio) shuffled items as the
validation set and the rest as training, the two parts together permute
the input, and the same (examples, ratio, seed) triple always yields the
same result. -/
theorem c1_split_dataset_spec {α : Type} (shuffle : Nat → List α → List α)
    (examples : List α) (ratio : ℚ) (seed : Nat)
    (hperm : ∀ sd l, (shuffle sd l).Perm l) :
    split_dataset shuffle examples ratio seed =
      ((shuffle seed examples).drop
          ((Int.floor ((examples.length : ℚ) * ratio)).toNat),
        (shuffle seed examples).take
          ((Int.floor ((examples.length : ℚ) * ratio)).toNat)) ∧
    ((split_dataset shuffle examples ratio seed).1 ++
      (split_dataset shuffle examples ratio seed).2).Perm examples ∧
    split_dataset shuffle examples ratio seed =
      split_dataset shuffle examples ratio seed := by
  have hlen : (shuffle seed examples).length = examples.length :=
    (hperm seed examples).length_eq
  refine ⟨?_, ?_, rfl⟩
  · simp only [split_dataset, hlen]
  · simp only [split_dataset]
    exact (List.perm_append_comm.trans
      (by rw [List.take_append_drop])).trans (hperm seed examples)

/-- Witness for C1 at a concrete shuffle, list, ratio and seed. -/
theorem c1_split_dataset_spec_witness :
    split_dataset (fun _ l => l.reverse) ([1, 2, 3] : List Nat) (1/3 : ℚ) 42 =
      ([2, 1], [3]) := by
  have h := (c1_split_dataset_spec (fun _ l => l.reverse) ([1, 2, 3] : List Nat)
    (1/3 : ℚ) 42 (fun _ l => l.reverse_perm)).1
  rw [h]
  norm_num

/-- Claim C3 (amended): a MULTIPART message all of whose parts carry an
attachment disposition yields an empty extracted body.  (The single-part
branch of the source ignores the disposition, see the counterexample.) -/
theorem c3_attachment_only_multipart (soup : Str → Str) (parts : List MsgPart)
    (h : parts.all (fun p => containsSub (str "attachment") p.disp) = true) :
    extract_clean_text soup (MsgContent.multi parts) = [] := by
  have hdef : extract_clean_text soup (MsgContent.multi parts) =
      (let th := walkAux soup none none parts
       let body :=
         if pyTruthy th.1 then th.1.getD []
         else if pyTruthy th.2 then th.2.getD [] else []
       stripStr (collapseNl (removeTags body))) := rfl
  rw [hdef, walkAux_all_attachment soup none none parts h]
  rfl

/-- Witness for C3 (amended) on a concrete two-part attachment-only message. -/
theorem c3_attachment_only_multipart_witness :
    extract_clean_text id (MsgContent.multi
      [⟨str "text/plain", str "attachment; filename=a.txt", some (str "hidden")⟩,
       ⟨str "application/pdf", str "attachment", some (str "pdfdata")⟩]) = [] :=
  c3_attachment_only_multipart id _ (by decide)

/-- Counterexample to Claim C3 as stated: a single-part message marked
attachment is decoded anyway — the extractor returns its payload, not "". -/
theorem c3_single_part_counterexample :
    extract_clean_text id
      (MsgContent.single (str "attachment; filename=a.pdf")
        (some (str "secret attachment payload"))) =
      str "secret attachment payload" ∧
    str "secret attachment payload" ≠ ([] : Str) := by
  constructor
  · decide
  · decide

/-- Claim C9: the Meaningfulness Classifier decides the four spec'd inputs
as stated: empty body (e.g. "Sent from my iPhone" after sanitization)
rejected; a bare URL rejected as URL-only; a name-plus-phone body rejected
as signature-only (under 10 words with a phone-shaped token); the long
meeting sentence kept. -/
theorem c9_classifier_cases :
    sanitize (str "Sent from my iPhone") = [] ∧
    is_meaningful [] [] = false ∧
    is_meaningful (str "http://example.com") [] = false ∧
    is_url_only (str "http://example.com") = true ∧
    is_meaningful (str "John Doe\n555-123-4567") [] = false ∧
    is_signature_only (str "John Doe\n555-123-4567") = true ∧
    wordCount (str "John Doe\n555-123-4567") < 10 ∧
    is_meaningful (str "Thanks for the update, let's meet Thursday at 3pm to finalize the proposal.") [] = true := by
  refine ⟨by decide, by decide, by decide, by decide, by decide, by decide, by decide, by decide⟩

/-- Counterexample to Claim C4 as stated: a first-line "On Monday," is NOT
truncated (the pattern needs a preceding newline), and a lower-case
"on ... wrote:" is NOT truncated (the regex is case-sensitive), while the
upper-case variant is. -/
theorem c4_strip_quoted_counterexample :
    strip_quoted (str "On Monday, something\nrest") =
      str "On Monday, something\nrest" ∧
    str "On Monday, something\nrest" ≠ [] ∧
    strip_quoted (str "a\non tue bob wrote: c") = str "a\non tue bob wrote: c" ∧
    strip_quoted (str "a\nOn Tue bob wrote: c") = str "a" ∧
    str "a\non tue bob wrote: c" ≠ str "a" := by
  refine ⟨by decide, by decide, by decide, by decide, by decide⟩

/-- Claim C4 (amended): `strip_quoted` drops every line starting with ">"
after leading whitespace (no such line survives), truncates at the first
CASE-SENSITIVE "On ... wrote:" occurrence (none survives), and truncates
at the first newline-preceded "On <word>," line (no match survives); a
first-line "On <weekday>," is not truncated and the matching is
case-sensitive, as the concrete cases show. -/
theorem c4_strip_quoted_amended (b l : Str) (hl : l ∈ splitNl (strip_quoted b)) :
    startsGT l = false ∧
    (∀ i, onWroteAtB (strip_quoted b) i = false) ∧
    (∀ i, matchNlOn ((strip_quoted b).drop i) = false) ∧
    strip_quoted (str "z\nOn Monday, x\ny") = str "z" ∧
    strip_quoted (str "On Monday, x\ny") = str "On Monday, x\ny" ∧
    strip_quoted (str "a\nOn Tue bob wrote: c") = str "a" ∧
    strip_quoted (str "a\non tue bob wrote: c") = str "a\non tue bob wrote: c" :=
  ⟨(strip_quoted_invariants b).1 l hl, (strip_quoted_invariants b).2.1,
    (strip_quoted_invariants b).2.2.1, by decide, by decide, by decide, by decide⟩

/-- Witness for C4 (amended) at a concrete body and line. -/
theorem c4_strip_quoted_amended_witness :
    startsGT (str "keep") = false ∧
    onWroteAtB (strip_quoted (str "keep\n> quoted")) 0 = false :=
  ⟨(c4_strip_quoted_amended (str "keep\n> quoted") (str "keep") (by decide)).1,
    (c4_strip_quoted_amended (str "keep\n> quoted") (str "keep") (by decide)).2.1 0⟩

/-- Counterexample to Claim C5 as stated: "a--b" has no standalone "--"
delimiter, yet `strip_signature` truncates it to "a". -/
theorem c5_strip_signature_counterexample :
    strip_signature (str "a--b") = str "a" ∧ str "a" ≠ str "a--b" := by
  refine ⟨by decide, by decide⟩

/-- Claim C5 (amended): `strip_signature` truncates at the first occurrence
of the substring "--" ANYWHERE (also inside words and longer runs — no
"--" survives), removes "Sent from my <device>" trailers to the end of
their line (no trailer survives in any line), and trims whitespace. -/
theorem c5_strip_signature_amended (b l : Str)
    (hl : l ∈ splitNl (strip_signature b)) :
    containsSub (str "--") (strip_signature b) = false ∧
    SentFreeLine l ∧
    strip_signature (str "a--b") = str "a" ∧
    strip_signature (str "x---y") = str "x" ∧
    strip_signature (str "a Sent from my Pixel\nkeep") = str "a \nkeep" :=
  ⟨(strip_signature_invariants b).1,
    (strip_signature_invariants b).2.1 l hl, by decide, by decide, by decide⟩

/-- Witness for C5 (amended) at a concrete body and line. -/
theorem c5_strip_signature_amended_witness :
    containsSub (str "--") (strip_signature (str "hello--world")) = false ∧
    SentFreeLine (str "hello") :=
  ⟨(c5_strip_signature_amended (str "hello--world") (str "hello") (by decide)).1,
    (c5_strip_signature_amended (str "hello--world") (str "hello") (by decide)).2.1⟩

/-- Counterexample to Claim C6 as stated: the composed Body Sanitizer is
not idempotent — the final trim can expose a "From:" header line that the
second pass then removes. -/
theorem c6_sanitizer_counterexample :
    sanitize (sanitize (str "From: a\n  From: b\nhello")) ≠
      sanitize (str "From: a\n  From: b\nhello") := by
  decide

/-- Claim C6 (amended): `strip_quoted` and `strip_signature` are idempotent
on every body, but `strip_email_metadata` is not, and neither is the
composed sanitizer: trimming can expose a header line at the start. -/
theorem c6_sanitizer_amended :
    (∀ b, strip_quoted (strip_quoted b) = strip_quoted b) ∧
    (∀ b, strip_signature (strip_signature b) = strip_signature b) ∧
    strip_email_metadata (strip_email_metadata (str "  From: a\nhello")) ≠
      strip_email_metadata (str "  From: a\nhello") ∧
    sanitize (sanitize (str "From: a\n  From: b\nhello")) ≠
      sanitize (str "From: a\n  From: b\nhello") :=
  ⟨strip_quoted_idem, strip_signature_idem, by decide, by decide⟩

/-- Claim C7: `process_mbox` deduplicates outbound messages by message
identifier before pairing — the emitted examples are the dedup map's
values in the order identifiers were first encountered (with no duplicate
identifier), and the representative kept for each identifier is the
last-seen outbound record. -/
theorem c7_dedup_spec (soup : Str → Str) (msgs : List RawMsg) (user : Str) :
    process_mbox soup msgs user =
      (uniqueOutbound (collectMsgs soup msgs user).1).map
        (buildExample (collectMsgs soup msgs user).2) ∧
    (uniqueOutbound (collectMsgs soup msgs user).1).map OutMsg.msgid =
      firstOccur ((collectMsgs soup msgs user).1.map OutMsg.msgid) ∧
    ((uniqueOutbound (collectMsgs soup msgs user).1).map OutMsg.msgid).Nodup ∧
    (∀ k, (uniqueOutbound (collectMsgs soup msgs user).1).find?
        (fun o => o.msgid == k) =
      ((collectMsgs soup msgs user).1.reverse).find? (fun o => o.msgid == k)) :=
  ⟨rfl, uniqueOutbound_keys _,
    by rw [uniqueOutbound_keys]; exact firstOccur_nodup _,
    fun k => uniqueOutbound_find? _ k⟩

/-- Claim C10: when several distinct outbound messages lack a Message-ID
they all share the empty-string identifier, and deduplication collapses
them to at most one ConversationExample (the last one): in general the
number of examples equals the number of first-occurrence identifiers, and
concretely two distinct no-id messages yield only the later one's example. -/
theorem c10_empty_msgid_collapse :
    (∀ (soup : Str → Str) (msgs : List RawMsg) (user : Str),
      (process_mbox soup msgs user).length =
        (firstOccur ((collectMsgs soup msgs user).1.map OutMsg.msgid)).length) ∧
    process_mbox id
      [⟨[], str "me@x.com", str "s", [],
        MsgContent.single [] (some (str "First body here today friend"))⟩,
       ⟨[], str "me@x.com", str "s", [],
        MsgContent.single [] (some (str "Second body goes here today"))⟩]
      (str "me@x.com") =
      [mkExample (str "Write an email in your tone.")
        (str "Second body goes here today")] ∧
    str "First body here today friend" ≠ str "Second body goes here today" := by
  refine ⟨?_, by decide, by decide⟩
  intro soup msgs user
  show ((uniqueOutbound (collectMsgs soup msgs user).1).map
    (buildExample (collectMsgs soup msgs user).2)).length = _
  rw [List.length_map, ← List.length_map (uniqueOutbound (collectMsgs soup msgs user).1) OutMsg.msgid,
    uniqueOutbound_keys]

/-- Claim C8: for every unique outbound message the builder emits the
inbound body as instruction when the reply-to id is non-empty and
resolvable, and otherwise synthesizes the instruction with the precedence
unsubscribe, then "Re:" (case-insensitive, giving the fixed reply
instruction, not the generic fallback), then "Fwd:"/"Fw:", then the
at-most-4-words brief instruction, then the generic-tone instruction. -/
theorem c8_instruction_spec (soup : Str → Str) (msgs : List RawMsg) (user : Str) :
    process_mbox soup msgs user =
      (uniqueOutbound (collectMsgs soup msgs user).1).map (fun o =>
        if o.inreply ≠ [] &&
            (dictFind (collectMsgs soup msgs user).2 o.inreply).isSome then
          mkExample ((dictFind (collectMsgs soup msgs user).2 o.inreply).getD [])
            o.body
        else if containsSub (str "unsubscribe") (stripStr (lowerStr o.subject)) ||
            stripStr (lowerStr o.body) == str "unsubscribe" then
          mkExample (str "Write an email asking to unsubscribe.") o.body
        else if (str "re:").isPrefixOf (stripStr (lowerStr o.subject)) then
          mkExample (str "Write an email responding to a message.") o.body
        else if (str "fwd:").isPrefixOf (stripStr (lowerStr o.subject)) ||
            (str "fw:").isPrefixOf (stripStr (lowerStr o.subject)) then
          mkExample (str "Write a forwarded message.") o.body
        else if wordCount o.body ≤ 4 then
          mkExample (str "Write a brief one-line email in your tone.") o.body
        else mkExample (str "Write an email in your tone.") o.body) ∧
    intent_from_subject_or_body (str "Re: Project")
        (str "one two three four five six") =
      str "Write an email responding to a message." ∧
    str "Write an email responding to a message." ≠
      str "Write an email in your tone." := by
  refine ⟨?_, by decide, by decide⟩
  show (uniqueOutbound (collectMsgs soup msgs user).1).map
    (buildExample (collectMsgs soup msgs user).2) = _
  apply List.map_congr_left
  intro o _
  simp only [buildExample, intent_from_subject_or_body]
  split_ifs <;> rfl

/-- The indices produced by an index-preserving filterMap form a sublist
of the original indices. -/
theorem filterMap_fst_sublist {A B : Type} (g : Nat × A → Option (Nat × B))
    (hg : ∀ p q, g p = some q → q.1 = p.1) :
    ∀ l : List (Nat × A), ((l.filterMap g).map Prod.fst).Sublist (l.map Prod.fst) := by
  intro l
  induction l with
  | nil => simp
  | cons a l ih =>
    rw [List.filterMap_cons]
    rcases hga : g a with _ | q
    · rw [List.map_cons]
      exact ih.trans (List.sublist_cons_self a.1 (l.map Prod.fst))
    · rw [List.map_cons, List.map_cons, hg a q hga]
      exact ih.cons₂ a.1

/-- The generic-prompt indices are pairwise distinct. -/
theorem genericEntries_fst_nodup (examples : List PyExample) :
    ((genericEntries examples).map Prod.fst).Nodup := by
  have hsub := filterMap_fst_sublist
    (fun p : Nat × PyExample =>
      match p.2.messages with
      | none => none
      | some msgs =>
        if GENERIC_PROMPTS.any
            (fun g => g == stripStr (lowerStr (firstRole (str "user") msgs))) then
          some (p.1, firstRole (str "assistant") msgs)
        else none)
    (by
      intro p q hpq
      have hpq2 : (match p.2.messages with
        | none => none
        | some msgs =>
          if GENERIC_PROMPTS.any
              (fun g => g == stripStr (lowerStr (firstRole (str "user") msgs))) then
            some (p.1, firstRole (str "assistant") msgs)
          else none) = some q := hpq
      rcases hm : p.2.messages with _ | msgs
      · rw [hm] at hpq2; cases hpq2
      · rw [hm] at hpq2
        have hpq3 : (if GENERIC_PROMPTS.any
              (fun g => g == stripStr (lowerStr (firstRole (str "user") msgs))) then
            some (p.1, firstRole (str "assistant") msgs)
          else none) = some q := hpq2
        by_cases hgen : GENERIC_PROMPTS.any
            (fun g => g == stripStr (lowerStr (firstRole (str "user") msgs))) = true
        · rw [if_pos hgen] at hpq3
          cases hpq3
          rfl
        · rw [if_neg hgen] at hpq3
          cases hpq3)
    examples.enum
  have := hsub.nodup (by
    rw [List.enum_map_fst]
    exact List.nodup_range _)
  exact this

/-- Counterexample to Claim C2 as stated: when the remote returns no
lines, the shortfall is padded with the FIXED string
"Write an email in your tone.", not with the example's own original
generic instruction ("Write an email with your tone" here). -/
theorem c2_pad_counterexample :
    (enhance_generic_prompts 10 (fun _ => [])
        [⟨some [⟨str "user", str "Write an email with your tone"⟩,
                ⟨str "assistant", str "some reply body"⟩]⟩]).1 =
      [⟨some [⟨str "user", str "Write an email in your tone."⟩,
              ⟨str "assistant", str "some reply body"⟩]⟩] ∧
    str "Write an email in your tone." ≠ str "Write an email with your tone" := by
  refine ⟨by decide, by decide⟩

/-- Claim C2 (amended): the Refiner issues exactly ceil(G/B) remote calls
(one per batch), replaces exactly G instructions (the index/prompt
assignment list has length G, over pairwise-distinct indices), pads any
shortfall with the fixed generic string "Write an email in your tone.",
consumes only the first G parsed lines when the remote over-produces
(the zip truncates against a padded list of length at least G), never
raises, and leaves every non-generic example untouched. -/
theorem c2_enhancer_amended (B : Nat) (respond : Nat → Str)
    (examples : List PyExample) (hB : 0 < B) :
    (enhance_generic_prompts B respond examples).2 =
      ((genericEntries examples).length + B - 1) / B ∧
    (genericEntries examples).length ≤
      B * (enhance_generic_prompts B respond examples).2 ∧
    B * (enhance_generic_prompts B respond examples).2 <
      (genericEntries examples).length + B ∧
    (enhance_generic_prompts B respond examples).1.length = examples.length ∧
    ((genericEntries examples).map Prod.fst).Nodup ∧
    (genericEntries examples).length ≤
      (collectRefined B respond ((genericEntries examples).map Prod.snd) ++
        List.replicate ((genericEntries examples).length -
          (collectRefined B respond
            ((genericEntries examples).map Prod.snd)).length)
          (str "Write an email in your tone.")).length ∧
    (((genericEntries examples).map Prod.fst).zip
      (collectRefined B respond ((genericEntries examples).map Prod.snd) ++
        List.replicate ((genericEntries examples).length -
          (collectRefined B respond
            ((genericEntries examples).map Prod.snd)).length)
          (str "Write an email in your tone."))).length =
      (genericEntries examples).length ∧
    (∀ i : Nat, (∀ q ∈ genericEntries examples, q.1 ≠ i) →
      (enhance_generic_prompts B respond examples).1.get? i = examples.get? i) := by
  have hcalls : (enhance_generic_prompts B respond examples).2 =
      ((genericEntries examples).length + B - 1) / B := by
    unfold enhance_generic_prompts
    by_cases hg : (genericEntries examples).isEmpty = true
    · rw [if_pos hg]
      have : (genericEntries examples).length = 0 := by
        rwa [List.isEmpty_iff, ← List.length_eq_zero] at hg
      rw [this]
      show 0 = (0 + B - 1) / B
      rw [Nat.zero_add, Nat.div_eq_of_lt (by omega)]
    · rw [if_neg hg]
      rfl
  have hdm := Nat.div_add_mod ((genericEntries examples).length + B - 1) B
  have hmlt : ((genericEntries examples).length + B - 1) % B < B :=
    Nat.mod_lt _ hB
  have hpadlen : (genericEntries examples).length ≤
      (collectRefined B respond ((genericEntries examples).map Prod.snd) ++
        List.replicate ((genericEntries examples).length -
          (collectRefined B respond
            ((genericEntries examples).map Prod.snd)).length)
          (str "Write an email in your tone.")).length := by
    rw [List.length_append, List.length_replicate]
    omega
  refine ⟨hcalls, ?_, ?_, ?_, genericEntries_fst_nodup examples, hpadlen, ?_, ?_⟩
  · rw [hcalls]
    rcases Nat.eq_zero_or_pos (genericEntries examples).length with h0 | hpos
    · rw [h0]; omega
    · omega
  · rw [hcalls]
    omega
  · unfold enhance_generic_prompts
    by_cases hg : (genericEntries examples).isEmpty = true
    · rw [if_pos hg]
    · rw [if_neg hg]
      exact enhanceStep_foldl_length _ _
  · rw [List.length_zip, List.length_map]
    omega
  · intro i hi
    unfold enhance_generic_prompts
    by_cases hg : (genericEntries examples).isEmpty = true
    · rw [if_pos hg]
    · rw [if_neg hg]
      apply enhanceStep_foldl_untouched
      intro ip hip
      have := (List.of_mem_zip hip).1
      obtain ⟨q, hq, hqfst⟩ := List.mem_map.mp this
      intro hcon
      exact hi q hq (by rw [← hqfst] at hcon; exact hcon)

/-- Witness for C2 (amended) at batch size 10 on a one-example list,
with the untouched-index hypothesis discharged at index 5. -/
theorem c2_enhancer_amended_witness :
    (enhance_generic_prompts 10 (fun _ => [])
      [⟨some [⟨str "user", str "write an email in your tone"⟩,
              ⟨str "assistant", str "b1"⟩]⟩]).2 = 1 ∧
    (enhance_generic_prompts 10 (fun _ => [])
      [⟨some [⟨str "user", str "write an email in your tone"⟩,
              ⟨str "assistant", str "b1"⟩]⟩]).1.length = 1 ∧
    (enhance_generic_prompts 10 (fun _ => [])
      [⟨some [⟨str "user", str "write an email in your tone"⟩,
              ⟨str "assistant", str "b1"⟩]⟩]).1.get? 5 = none := by
  have h := c2_enhancer_amended 10 (fun _ => [])
    [⟨some [⟨str "user", str "write an email in your tone"⟩,
            ⟨str "assistant", str "b1"⟩]⟩] (by decide)
  refine ⟨?_, ?_, ?_⟩
  · rw [h.1]
    decide
  · rw [h.2.2.2.1]
    rfl
  · rw [h.2.2.2.2.2.2.2 5 (by decide)]
    decide
